import Mathlib

/-!
# Verification of the vivo DSL engine

A shallow embedding of the vivo DSL compiler/runtime (lexer, template
engine, expression evaluator, statement executor) translated from the
Rust sources `src/lexer.rs`, `src/template.rs`, `src/runtime.rs`,
`src/ast.rs`, together with theorems settling the specification claims.

Modelling conventions:
* Rust `String`/`&str` values are modelled as Lean `String` / `List Char`
  (sequences of Unicode scalar values).  Rust's byte indices coincide with
  our character indices at every point where the code uses them to split a
  string it previously searched, so splits/substrings agree exactly; where
  the code observes raw byte *counts* (`str::len`) we use the UTF-8 byte
  size explicitly.
* Character classification (`is_alphabetic`, `is_alphanumeric`) is modelled
  by the ASCII classifiers; the Unicode `White_Space` set used by
  `char::is_whitespace` and `str::trim` is reproduced in full.  Unicode
  case mapping (`to_uppercase`/`to_lowercase`) is modelled by the ASCII
  per-character mapping.  All claims are settled on ASCII data.
* `f64` literal values are modelled exactly: a string accepted by Rust's
  `f64::from_str` grammar maps to its mathematical (rational) value, or to
  the infinity/NaN markers.  IEEE rounding of over-long or out-of-range
  literals is not modelled.
-/

namespace Vivo

/-- Rust `bool::to_string()`: renders a boolean as the text
`"true"`/`"false"`. -/
def boolString (b : Bool) : String :=
  if b then "true" else "false"

/-- The Unicode `White_Space` set, as used by Rust's `char::is_whitespace`
and `str::trim` (code points listed explicitly). -/
def rustIsWhitespace (c : Char) : Bool :=
  let n := c.toNat
  n = 0x09 || n = 0x0a || n = 0x0b || n = 0x0c || n = 0x0d || n = 0x20 ||
  n = 0x85 || n = 0xa0 || n = 0x1680 || (0x2000 ≤ n && n ≤ 0x200a) ||
  n = 0x2028 || n = 0x2029 || n = 0x202f || n = 0x205f || n = 0x3000

/-- `str::find(pat)`: index of the first occurrence of `pat` in `l`
(`some 0` for the empty pattern, as in Rust). -/
def findSub : List Char → List Char → Option Nat
  | l, pat =>
    if pat.isPrefixOf l then some 0
    else
      match l with
      | [] => none
      | _ :: t => (findSub t pat).map (· + 1)

/-- `str::contains(pat)` as a Bool. -/
def containsSub (l pat : List Char) : Bool :=
  (findSub l pat).isSome

theorem findSub_le {l pat : List Char} {i : Nat} (h : findSub l pat = some i) :
    i + pat.length ≤ l.length := by
  induction l generalizing i with
  | nil =>
    rw [findSub] at h
    by_cases hp : pat.isPrefixOf ([] : List Char)
    · simp [hp] at h
      subst h
      simpa using List.IsPrefix.length_le (List.isPrefixOf_iff_prefix.mp hp)
    · simp [hp] at h
  | cons c t ih =>
    rw [findSub] at h
    by_cases hp : pat.isPrefixOf (c :: t)
    · simp [hp] at h
      subst h
      simpa using List.IsPrefix.length_le (List.isPrefixOf_iff_prefix.mp hp)
    · simp [hp] at h
      obtain ⟨j, hj, rfl⟩ := h
      have := ih hj
      simp only [List.length_cons]
      omega

theorem findSub_pos_lt {l pat : List Char} {i : Nat} (h : findSub l pat = some i)
    (hpat : pat ≠ []) : i < l.length := by
  have := findSub_le h
  have hl : 1 ≤ pat.length := by
    cases pat with
    | nil => exact absurd rfl hpat
    | cons a t => simp
  omega

/-! ## AST (`src/ast.rs`)

`ast.rs` declares `Expression` with `String`, `Variable`, `Number(i64)`,
`MethodCall{object, method, arg}`, `Tuple`, `BinaryOp`, `LogicalOp` and
`UnaryOp(Not)` variants.  `template.rs` additionally constructs an
`Expression::Arithmetic` variant (with `ArithmeticOperator`), whose
declaration is not in the `ast.rs` snapshot; it is included here following
the template grammar of spec section 4.4. -/

/-- `ast.rs` `BinaryOperator`. -/
inductive BinOp where
  | eq | ne | gt | lt | ge | le
deriving DecidableEq, Repr

/-- `ast.rs` `LogicalOperator`. -/
inductive LogOp where
  | and | or
deriving DecidableEq, Repr

/-- `ArithmeticOperator` as used by `template.rs` (`+ - * / %`). -/
inductive ArithOp where
  | add | sub | mul | div | mod
deriving DecidableEq, Repr

/-- `ast.rs` `Expression`.  `Number` carries an `i64`, modelled as `Int`;
`UnaryOp`'s only operator is `Not`, so the operator field is dropped. -/
inductive Expression where
  | str : String → Expression
  | var : String → Expression
  | num : Int → Expression
  | methodCall : Expression → String → Option Expression → Expression
  | tuple : List Expression → Expression
  | binaryOp : Expression → BinOp → Expression → Expression
  | logicalOp : Expression → LogOp → Expression → Expression
  | unaryNot : Expression → Expression
  | arith : Expression → ArithOp → Expression → Expression
deriving Repr

mutual

/-- Structural size of an expression (termination measure for the
evaluator). -/
def exprSize : Expression → Nat
  | .str _ => 1
  | .var _ => 1
  | .num _ => 1
  | .methodCall o _ a => 1 + exprSize o + optSize a
  | .tuple l => 1 + listSize l
  | .binaryOp l _ r => 1 + exprSize l + exprSize r
  | .logicalOp l _ r => 1 + exprSize l + exprSize r
  | .unaryNot e => 1 + exprSize e
  | .arith l _ r => 1 + exprSize l + exprSize r

/-- Size of an optional argument expression. -/
def optSize : Option Expression → Nat
  | none => 0
  | some e => exprSize e

/-- Size of an argument list. -/
def listSize : List Expression → Nat
  | [] => 0
  | e :: t => exprSize e + listSize t

end

mutual

/-- Length of the longest string literal inside an expression (termination
measure for the evaluator/template-engine recursion). -/
def exprStrMax : Expression → Nat
  | .str s => s.length
  | .var _ => 0
  | .num _ => 0
  | .methodCall o _ a => max (exprStrMax o) (optStrMax a)
  | .tuple l => listStrMax l
  | .binaryOp l _ r => max (exprStrMax l) (exprStrMax r)
  | .logicalOp l _ r => max (exprStrMax l) (exprStrMax r)
  | .unaryNot e => exprStrMax e
  | .arith l _ r => max (exprStrMax l) (exprStrMax r)

/-- `exprStrMax` on an optional argument. -/
def optStrMax : Option Expression → Nat
  | none => 0
  | some e => exprStrMax e

/-- `exprStrMax` on an argument list. -/
def listStrMax : List Expression → Nat
  | [] => 0
  | e :: t => max (exprStrMax e) (listStrMax t)

end

/-! ## The `f64` value model (`str::parse::<f64>()`)

Rust's `f64::from_str` accepts an optional sign, then either a
case-insensitive `inf`/`infinity`/`nan`, or a decimal number
`Digits [. Digits] [(e|E) [sign] Digits]` (at least one mantissa digit;
exponent digits required when the marker is present).  The accepted value
is modelled exactly (an integer mantissa times a power of ten), with
infinity/NaN markers; IEEE rounding of over-long or out-of-range literals
is not modelled. -/

/-- A parsed floating-point value: NaN, a signed infinity (`true` =
negative), or a finite value represented exactly as `m * 10 ^ e`
(mantissa and decimal exponent; not normalised — the ordering compares
values, not representations). -/
inductive FVal where
  | nan : FVal
  | inf : Bool → FVal
  | fin : Int → Int → FVal
deriving DecidableEq

/-- Numeric value of a digit string (most significant first). -/
def digitsVal (l : List Char) : Nat :=
  l.foldl (fun a c => 10 * a + (c.toNat - '0'.toNat)) 0

/-- Split a leading run of ASCII digits from the rest. -/
def splitDigits (l : List Char) : List Char × List Char :=
  (l.takeWhile Char.isDigit, l.dropWhile Char.isDigit)

/-- `10 ^ k` on `Int` (plain recursion, no type-class path). -/
def intPow10 : Nat → Int
  | 0 => 1
  | k + 1 => 10 * intPow10 k

/-- The exact value `±(intD.fracD) * 10 ^ exp`, as mantissa/exponent:
`intD.fracD = digitsVal (intD ++ fracD) / 10 ^ fracD.length`. -/
def decimalVal (neg : Bool) (intD fracD : List Char) (exp : Int) : FVal :=
  let m : Int := digitsVal (intD ++ fracD)
  FVal.fin (if neg then -m else m) (exp - fracD.length)

/-- `str::parse::<f64>()`, on the character list of the string: `none`
iff Rust's parse returns `Err`. -/
def parseF64Chars (l : List Char) : Option FVal :=
  let signed : Bool × List Char :=
    match l with
    | '+' :: t => (false, t)
    | '-' :: t => (true, t)
    | t => (false, t)
  let neg := signed.1
  let rest := signed.2
  let low := rest.map Char.toLower
  if low = "inf".data || low = "infinity".data then some (.inf neg)
  else if low = "nan".data then some .nan
  else
    let (intD, r1) := splitDigits rest
    let fracSplit : List Char × List Char :=
      match r1 with
      | '.' :: t => splitDigits t
      | _ => ([], r1)
    let fracD := fracSplit.1
    let r2 := fracSplit.2
    if intD.length + fracD.length = 0 then none
    else
      match r2 with
      | [] => some (decimalVal neg intD fracD 0)
      | e :: t =>
        if e = 'e' || e = 'E' then
          let esigned : Bool × List Char :=
            match t with
            | '+' :: u => (false, u)
            | '-' :: u => (true, u)
            | u => (false, u)
          let (expD, r3) := splitDigits esigned.2
          if expD = [] || r3 ≠ [] then none
          else
            let ev : Int := if esigned.1 then -(digitsVal expD : Int) else (digitsVal expD : Int)
            some (decimalVal neg intD fracD ev)
        else none

/-- `str::parse::<f64>()` on a `String`. -/
def parseF64 (s : String) : Option FVal :=
  parseF64Chars s.data

/-- IEEE-754 ordering of two parsed values: `none` when either side is
NaN, otherwise the order (negative infinity below all finite values below
positive infinity; finite values compared exactly, by scaling both
mantissas to the smaller exponent). -/
def fvalOrd : FVal → FVal → Option Ordering
  | .nan, _ => none
  | _, .nan => none
  | .inf s1, .inf s2 =>
    some (if s1 = s2 then .eq else if s1 then .lt else .gt)
  | .inf s, .fin _ _ => some (if s then .lt else .gt)
  | .fin _ _, .inf s => some (if s then .gt else .lt)
  | .fin m1 e1, .fin m2 e2 =>
    some (compare (m1 * intPow10 (e1 - min e1 e2).toNat)
      (m2 * intPow10 (e2 - min e1 e2).toNat))

/-- The six `f64` comparisons of `eval_expression`'s numeric branch
(`l == r`, `l != r`, `l > r`, `l < r`, `l >= r`, `l <= r`), with IEEE
NaN semantics. -/
def numCmpBool (op : BinOp) (a b : FVal) : Bool :=
  match op, fvalOrd a b with
  | .eq, o => o = some .eq
  | .ne, o => o ≠ some .eq
  | .gt, o => o = some .gt
  | .lt, o => o = some .lt
  | .ge, o => o = some .gt || o = some .eq
  | .le, o => o = some .lt || o = some .eq

/-- Rust `String` ordering: lexicographic on the scalar-value sequence
(UTF-8 byte order and code-point order coincide). -/
def charListLt : List Char → List Char → Bool
  | [], [] => false
  | [], _ :: _ => true
  | _ :: _, [] => false
  | a :: as, b :: bs =>
    if a.toNat < b.toNat then true
    else if b.toNat < a.toNat then false
    else charListLt as bs

/-- `a < b` on Rust `String`s. -/
def strLtBool (a b : String) : Bool := charListLt a.data b.data

/-- The six `String` comparisons of `eval_expression`'s fallback branch
(`==`, `!=`, `>`, `<`, `>=`, `<=` of Rust's total `String` order). -/
def strCmpBool (op : BinOp) (a b : String) : Bool :=
  match op with
  | .eq => a == b
  | .ne => a != b
  | .gt => strLtBool b a
  | .lt => strLtBool a b
  | .ge => !strLtBool a b
  | .le => !strLtBool b a


/-! ## Termination helpers -/

theorem lexNatPair {a b c d : Nat} (h : a ≤ c) (h2 : b < d) :
    Prod.Lex (· < ·) (· < ·) (a, b) (c, d) := by
  rcases Nat.lt_or_ge a c with h' | h'
  · exact Prod.Lex.left _ _ h'
  · have : a = c := Nat.le_antisymm h h'
    subst this
    exact Prod.Lex.right _ h2

/-! ## Template sub-grammar parser (`src/template.rs`, lines 5-221)

`parse_template_expr` handles a marker's inner text: `$name`,
`$name.method(digits)` chains, and a `$`-brace form whose inner text goes
to the arithmetic grammar `parse_complex_expr` / `parse_additive_expr` /
`parse_multiplicative_expr` / `parse_primary_expr`. -/

/-- `str::trim()` on a character list. -/
def trimChars (l : List Char) : List Char :=
  ((l.dropWhile rustIsWhitespace).reverse.dropWhile rustIsWhitespace).reverse

theorem dropWhile_length_le {α : Type} (p : α → Bool) (l : List α) :
    (l.dropWhile p).length ≤ l.length := by
  induction l with
  | nil => simp
  | cons a t ih =>
    rw [List.dropWhile_cons]
    split
    · exact Nat.le_succ_of_le ih
    · simp

theorem trimChars_length_le (l : List Char) : (trimChars l).length ≤ l.length := by
  unfold trimChars
  calc ((l.dropWhile rustIsWhitespace).reverse.dropWhile rustIsWhitespace).reverse.length
      = ((l.dropWhile rustIsWhitespace).reverse.dropWhile rustIsWhitespace).length := by
        simp
    _ ≤ (l.dropWhile rustIsWhitespace).reverse.length := dropWhile_length_le _ _
    _ = (l.dropWhile rustIsWhitespace).length := by simp
    _ ≤ l.length := dropWhile_length_le _ _

/-- The right-to-left scan of `parse_additive_expr`/`parse_multiplicative_expr`:
starting from index `i` (exclusive) down to 0, tracking parenthesis depth,
find the index of the rightmost depth-0 operator character. -/
def findSplitAux (cs : List Char) (isOp : Char → Bool) (depth : Int) : Nat → Option Nat
  | 0 => none
  | i + 1 =>
    let c := cs.getD i ' '
    if c = ')' then findSplitAux cs isOp (depth + 1) i
    else if c = '(' then findSplitAux cs isOp (depth - 1) i
    else if isOp c && depth = 0 then some i
    else findSplitAux cs isOp depth i

/-- Scan a whole string for the rightmost top-level operator. -/
def findSplit (cs : List Char) (isOp : Char → Bool) : Option Nat :=
  findSplitAux cs isOp 0 cs.length

theorem findSplitAux_lt {cs : List Char} {isOp : Char → Bool} {depth : Int}
    {n i : Nat} (h : findSplitAux cs isOp depth n = some i) : i < n := by
  induction n generalizing depth with
  | zero => simp [findSplitAux] at h
  | succ m ih =>
    rw [findSplitAux] at h
    split at h
    · exact Nat.lt_succ_of_lt (ih h)
    · split at h
      · exact Nat.lt_succ_of_lt (ih h)
      · split at h
        · cases h; omega
        · exact Nat.lt_succ_of_lt (ih h)

theorem findSplit_lt {cs : List Char} {isOp : Char → Bool} {i : Nat}
    (h : findSplit cs isOp = some i) : i < cs.length :=
  findSplitAux_lt h

/-- `+`/`-` (the operators of `parse_additive_expr`). -/
def isAddOp (c : Char) : Bool := c = '+' || c = '-'

/-- `*`/`/`/`%` (the operators of `parse_multiplicative_expr`). -/
def isMulOp (c : Char) : Bool := c = '*' || c = '/' || c = '%'

/-- `str::parse::<i64>()`: optional sign, nonempty digit run, nothing
else, and the value must fit in an `i64`. -/
def parseI64Chars (l : List Char) : Option Int :=
  let signed : Bool × List Char :=
    match l with
    | '+' :: t => (false, t)
    | '-' :: t => (true, t)
    | t => (false, t)
  let (digs, rest) := splitDigits signed.2
  if digs = [] ∨ rest ≠ [] then none
  else
    let v : Int := if signed.1 then -(digitsVal digs : Int) else (digitsVal digs : Int)
    if v < -(2 ^ 63) ∨ 2 ^ 63 - 1 < v then none else some v

/-- `s.starts_with('(') && s.ends_with(')')`. -/
def parenWrapped (l : List Char) : Bool :=
  l.headD ' ' = '(' && l.getLastD ' ' = ')'

theorem parenWrapped_two_le {l : List Char} (h : parenWrapped l = true) :
    2 ≤ l.length := by
  match l with
  | [] => simp [parenWrapped] at h
  | [c] =>
    simp [parenWrapped] at h
    rw [h.1] at h
    exact absurd h.2 (by decide)
  | a :: b :: t => simp

mutual

/-- `parse_complex_expr` (template.rs line 108): trim, then parse an
additive expression. -/
def parseComplexExpr (s : List Char) : Expression :=
  parseAdditiveExpr (trimChars s)
termination_by (s.length, 3)
decreasing_by
  exact lexNatPair (trimChars_length_le s) (by omega)

/-- `parse_additive_expr` (template.rs line 115): split at the rightmost
top-level `+`/`-`. -/
def parseAdditiveExpr (s : List Char) : Expression :=
  match h : findSplit s isAddOp with
  | some i =>
    let c := s.getD i ' '
    Expression.arith (parseAdditiveExpr (trimChars (s.take i)))
      (if c = '+' then ArithOp.add else ArithOp.sub)
      (parseMultiplicativeExpr (trimChars (s.drop (i + 1))))
  | none => parseMultiplicativeExpr s
termination_by (s.length, 2)
decreasing_by
  · have hi := findSplit_lt h
    apply Prod.Lex.left
    have := trimChars_length_le (s.take i)
    have ht : (s.take i).length ≤ i := by simp
    omega
  · have hi := findSplit_lt h
    apply Prod.Lex.left
    have := trimChars_length_le (s.drop (i + 1))
    have ht : (s.drop (i + 1)).length = s.length - (i + 1) := by simp
    omega
  · exact lexNatPair (Nat.le_refl _) (by omega)

/-- `parse_multiplicative_expr` (template.rs line 146): split at the
rightmost top-level `*`/`/`/`%`. -/
def parseMultiplicativeExpr (s : List Char) : Expression :=
  match h : findSplit s isMulOp with
  | some i =>
    let c := s.getD i ' '
    Expression.arith (parseMultiplicativeExpr (trimChars (s.take i)))
      (if c = '*' then ArithOp.mul else if c = '/' then ArithOp.div else ArithOp.mod)
      (parsePrimaryExpr (trimChars (s.drop (i + 1))))
  | none => parsePrimaryExpr s
termination_by (s.length, 1)
decreasing_by
  · have hi := findSplit_lt h
    apply Prod.Lex.left
    have := trimChars_length_le (s.take i)
    have ht : (s.take i).length ≤ i := by simp
    omega
  · have hi := findSplit_lt h
    apply Prod.Lex.left
    have := trimChars_length_le (s.drop (i + 1))
    have ht : (s.drop (i + 1)).length = s.length - (i + 1) := by simp
    omega
  · exact lexNatPair (Nat.le_refl _) (by omega)

/-- `parse_primary_expr` (template.rs line 178): parentheses, integer
literal, `var.method` (arguments scanned but dropped, arg always `None`),
or a plain variable. -/
def parsePrimaryExpr (s : List Char) : Expression :=
  let t := trimChars s
  if hpar : parenWrapped t then
    parseComplexExpr ((t.drop 1).take (t.length - 2))
  else
    match parseI64Chars t with
    | some n => Expression.num n
    | none =>
      if t.contains '.' then
        let varName := trimChars (t.takeWhile (· ≠ '.'))
        let methodPart := trimChars ((t.dropWhile (· ≠ '.')).drop 1)
        let obj := Expression.var (String.mk varName)
        match findSub methodPart ['('] with
        | some p =>
          Expression.methodCall obj (String.mk (trimChars (methodPart.take p))) none
        | none => Expression.methodCall obj (String.mk methodPart) none
      else Expression.var (String.mk t)
termination_by (s.length, 0)
decreasing_by
  apply Prod.Lex.left
  have h2 : 2 ≤ (trimChars s).length := parenWrapped_two_le hpar
  have hts := trimChars_length_le s
  have hlen : (((trimChars s).drop 1).take ((trimChars s).length - 2)).length
      ≤ (trimChars s).length - 2 := by simp
  omega

end

/-- The brace-collection scan of `parse_template_expr`'s `$`-brace branch
(template.rs line 18): consume characters tracking brace depth; the
matching close brace ends the scan and is not collected; nested braces are
collected. -/
def collectBraces : List Char → Nat → List Char
  | [], _ => []
  | c :: t, depth =>
    if c = '\x7b' then c :: collectBraces t (depth + 1)
    else if c = '\x7d' then
      if depth = 1 then []
      else c :: collectBraces t (depth - 1)
    else c :: collectBraces t depth

/-- Identifier characters of the template grammar
(`is_alphanumeric() || '_'`; ASCII model). -/
def isIdentChar (c : Char) : Bool := c.isAlphanum || c = '_'

/-- Method-name characters of the template grammar
(`is_alphabetic() || '_'`; ASCII model). -/
def isMethodChar (c : Char) : Bool := c.isAlpha || c = '_'

/-- `if matches!(chars.peek(), Some(')')) { chars.next(); }`. -/
def skipRParen : List Char → List Char
  | ')' :: r => r
  | l => l

theorem skipRParen_length_le (l : List Char) : (skipRParen l).length ≤ l.length := by
  rw [skipRParen.eq_def]
  split
  · simp
  · exact Nat.le_refl _

theorem chainTailBound (rest : List Char) :
    (rest.dropWhile isMethodChar).length < ('.' :: rest).length := by
  simp only [List.length_cons]
  exact Nat.lt_succ_of_le (dropWhile_length_le _ _)

theorem chainParenBound {rest rest2 : List Char}
    (h2 : rest.dropWhile isMethodChar = '(' :: rest2) :
    (skipRParen (rest2.dropWhile Char.isDigit)).length < ('.' :: rest).length := by
  have ha := dropWhile_length_le isMethodChar rest
  have hb := dropWhile_length_le Char.isDigit rest2
  have hc := skipRParen_length_le (rest2.dropWhile Char.isDigit)
  have hd : (rest.dropWhile isMethodChar).length = rest2.length + 1 := by
    rw [h2]; simp
  simp only [List.length_cons]
  omega

/-- The `.method(...)` chain loop of `parse_template_expr` (template.rs
line 53): while the next character is `.`, read a method name, an optional
parenthesised digit-run argument (any non-digit argument text is dropped
and `arg` stays `None`), and wrap the expression in a `MethodCall`. -/
def parseMethodChain (e : Expression) (l : List Char) : Expression :=
  match l with
  | '.' :: rest =>
    match h2 : rest.dropWhile isMethodChar with
    | '(' :: rest2 =>
      parseMethodChain
        (Expression.methodCall e (String.mk (rest.takeWhile isMethodChar))
          (if rest2.takeWhile Char.isDigit = [] then none
           else some (Expression.num (digitsVal (rest2.takeWhile Char.isDigit)))))
        (skipRParen (rest2.dropWhile Char.isDigit))
    | _ =>
      parseMethodChain
        (Expression.methodCall e (String.mk (rest.takeWhile isMethodChar)) none)
        (rest.dropWhile isMethodChar)
  | _ => e
termination_by l.length
decreasing_by
  · exact chainParenBound (by assumption)
  · exact chainTailBound _

/-- `parse_template_expr` (template.rs line 5): a marker's inner text.
Text not starting with `$` stays a string literal; `$` followed by an open
brace goes to the arithmetic grammar; otherwise an identifier is read and
an optional `.method(...)` chain is parsed. -/
def parseTemplateExpr (s : List Char) : Expression :=
  match s with
  | '$' :: '\x7b' :: rest2 => parseComplexExpr (collectBraces rest2 1)
  | '$' :: rest =>
    parseMethodChain (Expression.var (String.mk (rest.takeWhile isIdentChar)))
      (rest.dropWhile isIdentChar)
  | _ => Expression.str (String.mk s)

theorem parseMethodChain_strMax :
    ∀ (n : Nat) (e : Expression) (l : List Char), l.length ≤ n →
      exprStrMax (parseMethodChain e l) = exprStrMax e := by
  intro n
  induction n with
  | zero =>
    intro e l hl
    have : l = [] := List.length_eq_zero.mp (Nat.le_zero.mp hl)
    subst this
    rw [parseMethodChain.eq_def]
  | succ m ih =>
    intro e l hl
    rw [parseMethodChain.eq_def]
    split
    · rename_i rest
      split
      · rename_i rest2 h2
        rw [ih]
        · split <;> simp [exprStrMax, optStrMax]
        · have ha : (rest.dropWhile isMethodChar).length ≤ rest.length :=
            dropWhile_length_le _ _
          have hb : (rest2.dropWhile Char.isDigit).length ≤ rest2.length :=
            dropWhile_length_le _ _
          have hc := skipRParen_length_le (rest2.dropWhile Char.isDigit)
          have hd : (rest.dropWhile isMethodChar).length = rest2.length + 1 := by
            rw [h2]; simp
          simp only [List.length_cons] at hl
          omega
      · rw [ih]
        · simp [exprStrMax, optStrMax]
        · have ha : (rest.dropWhile isMethodChar).length ≤ rest.length :=
            dropWhile_length_le _ _
          simp only [List.length_cons] at hl
          omega
    · rfl

theorem parseArith_strMax :
    ∀ n : Nat,
      (∀ s : List Char, s.length ≤ n → exprStrMax (parsePrimaryExpr s) = 0) ∧
      (∀ s : List Char, s.length ≤ n → exprStrMax (parseMultiplicativeExpr s) = 0) ∧
      (∀ s : List Char, s.length ≤ n → exprStrMax (parseAdditiveExpr s) = 0) ∧
      (∀ s : List Char, s.length ≤ n → exprStrMax (parseComplexExpr s) = 0) := by
  intro n
  induction n using Nat.strong_induction_on with
  | _ n ih =>
    have hp : ∀ s : List Char, s.length ≤ n → exprStrMax (parsePrimaryExpr s) = 0 := by
      intro s hs
      rw [parsePrimaryExpr]
      split
      · rename_i hpar
        have h2 : 2 ≤ (trimChars s).length := parenWrapped_two_le hpar
        have hts := trimChars_length_le s
        have hinner : (((trimChars s).drop 1).take ((trimChars s).length - 2)).length
            ≤ (trimChars s).length - 2 := by simp
        exact (ih (n - 1) (by omega)).2.2.2 _ (by omega)
      · dsimp only
        split
        · simp [exprStrMax]
        · split
          · split <;> simp [exprStrMax, optStrMax]
          · simp [exprStrMax]
    have hm : ∀ s : List Char, s.length ≤ n →
        exprStrMax (parseMultiplicativeExpr s) = 0 := by
      intro s hs
      rw [parseMultiplicativeExpr]
      split
      · rename_i i h
        have hi := findSplit_lt h
        have h1 := trimChars_length_le (s.take i)
        have h2 := trimChars_length_le (s.drop (i + 1))
        have ht : (s.take i).length ≤ i := by simp
        have hd : (s.drop (i + 1)).length = s.length - (i + 1) := by simp
        have hl := (ih (n - 1) (by omega)).2.1 (trimChars (s.take i)) (by omega)
        have hr := hp (trimChars (s.drop (i + 1))) (by omega)
        simp [exprStrMax, hl, hr]
      · exact hp s hs
    have ha : ∀ s : List Char, s.length ≤ n →
        exprStrMax (parseAdditiveExpr s) = 0 := by
      intro s hs
      rw [parseAdditiveExpr]
      split
      · rename_i i h
        have hi := findSplit_lt h
        have h1 := trimChars_length_le (s.take i)
        have h2 := trimChars_length_le (s.drop (i + 1))
        have ht : (s.take i).length ≤ i := by simp
        have hd : (s.drop (i + 1)).length = s.length - (i + 1) := by simp
        have hl := (ih (n - 1) (by omega)).2.2.1 (trimChars (s.take i)) (by omega)
        have hr := hm (trimChars (s.drop (i + 1))) (by omega)
        simp [exprStrMax, hl, hr]
      · exact hm s hs
    have hc : ∀ s : List Char, s.length ≤ n →
        exprStrMax (parseComplexExpr s) = 0 := by
      intro s hs
      rw [parseComplexExpr]
      exact ha (trimChars s) (Nat.le_trans (trimChars_length_le s) hs)
    exact ⟨hp, hm, ha, hc⟩

theorem parseComplexExpr_strMax (s : List Char) : exprStrMax (parseComplexExpr s) = 0 :=
  (parseArith_strMax s.length).2.2.2 s (Nat.le_refl _)

theorem parseTemplateExpr_strMax (s : List Char) :
    exprStrMax (parseTemplateExpr s) ≤ s.length := by
  rw [parseTemplateExpr.eq_def]
  split
  · rw [parseComplexExpr_strMax]
    exact Nat.zero_le _
  · rename_i rest hne
    rw [parseMethodChain_strMax (rest.dropWhile isIdentChar).length _ _ (Nat.le_refl _)]
    simp [exprStrMax]
  · simp [exprStrMax, String.length]

/-! ## String-method support (`src/runtime.rs`, `apply_method`) -/

/-- `str::trim_end()`. -/
def trimEnd (l : List Char) : List Char :=
  (l.reverse.dropWhile rustIsWhitespace).reverse

/-- `str::replace(from, to)`: replace every non-overlapping occurrence,
left to right.  An empty `from` matches at every character boundary, as
in Rust. -/
def replaceAll (fromP toP : List Char) (l : List Char) : List Char :=
  if hfp : fromP = [] then
    toP ++ l.foldr (fun c acc => c :: (toP ++ acc)) []
  else
    match l with
    | [] => []
    | c :: t =>
      if fromP.isPrefixOf (c :: t) then
        toP ++ replaceAll fromP toP ((c :: t).drop fromP.length)
      else
        c :: replaceAll fromP toP t
termination_by l.length
decreasing_by
  · have h1 : 1 ≤ fromP.length := by
      cases fromP with
      | nil => exact absurd rfl hfp
      | cons a t => simp
    simp only [List.length_cons, List.length_drop]
    omega
  · simp only [List.length_cons]
    omega

/-- `base.matches(pat).count()`: the number of non-overlapping occurrences,
left to right.  An empty pattern matches at every character boundary. -/
def countOcc (pat : List Char) (l : List Char) : Nat :=
  if hp : pat = [] then l.length + 1
  else
    match hf : findSub l pat with
    | some i => 1 + countOcc pat (l.drop (i + pat.length))
    | none => 0
termination_by l.length
decreasing_by
  have h1 : 1 ≤ pat.length := by
    cases pat with
    | nil => exact absurd rfl hp
    | cons a t => simp
  have h2 := findSub_le hf
  simp only [List.length_drop]
  omega

/-- `str::repeat(n)`. -/
def repeatStr (s : String) (n : Nat) : String :=
  String.join (List.replicate n s)

/-- `n as usize` for an `i64` value: two's-complement wrap into
`[0, 2^64)`. -/
def i64ToUsize (n : Int) : Nat :=
  (n % (2 : Int) ^ 64).toNat

/-- `str::parse::<usize>()`: optional `+`, nonempty digit run, nothing
else, value below `2^64`. -/
def parseUsizeChars (l : List Char) : Option Nat :=
  let rest : List Char :=
    match l with
    | '+' :: t => t
    | t => t
  let (digs, r) := splitDigits rest
  if digs = [] ∨ r ≠ [] then none
  else if digitsVal digs < 2 ^ 64 then some (digitsVal digs) else none

/-- UTF-8 byte length of a character list (`str::len` of the
corresponding string slice). -/
def utf8Len (l : List Char) : Nat :=
  l.foldl (fun n c => n + c.utf8Size) 0

/-- The `typeof`/`type_of` classifier of `apply_method`: numeric parse,
then tuple-looking, then boolean text, then empty, else string. -/
def typeofStr (base : String) : String :=
  if (parseF64 base).isSome then "number"
  else if base.data.headD ' ' = '(' ∧ base.data.getLastD ' ' = ')' then "tuple"
  else if base = "true" ∨ base = "false" then "boolean"
  else if base.isEmpty then "empty"
  else "string"

/-- The built-in method names recognised by `apply_method` (every match
arm except the fall-through `unknown`). -/
def builtinMethods : List String :=
  ["reverse", "upper", "lower", "length", "len", "capitalize", "cap",
   "contains", "starts_with", "startsWith", "ends_with", "endsWith",
   "find", "trim", "rtrim", "ltrim", "repeat", "repeat_sep", "repeatSep",
   "replace", "remove", "count", "is_empty", "isEmpty", "typeof", "type_of"]

/-- Does the argument fit the shape the single-string-argument methods
demand (`Some(Expression::String(a))` with `a != ""`)? -/
def goodStrArg : Option Expression → Bool
  | some (.str s) => s ≠ ""
  | _ => false

/-- Does the argument fit the shape `repeat_sep`/`replace` demand
(`Some(Expression::Tuple(v))` with `v.len() == 2`)? -/
def goodPairArg : Option Expression → Bool
  | some (.tuple [_, _]) => true
  | _ => false

/-- The two components of a two-element tuple argument, when the argument
has that shape (`Some(Expression::Tuple(v))` with `v.len() == 2`). -/
def pairArg : Option Expression → Option (Expression × Expression)
  | some (.tuple [a, b]) => some (a, b)
  | _ => none

/-- Does the argument fit the numeric shape `repeat` consumes
(`Some(Expression::Number(n))`)? -/
def numArg : Option Expression → Bool
  | some (.num _) => true
  | _ => false

theorem pairArg_strMax {arg : Option Expression} {p : Expression × Expression}
    (h : pairArg arg = some p) :
    max (exprStrMax p.1) (exprStrMax p.2) ≤ optStrMax arg := by
  obtain ⟨p1, p2⟩ := p
  rcases arg with _ | e
  · simp [pairArg] at h
  · cases e <;> simp_all [pairArg, optStrMax, exprStrMax]
    rename_i l
    rcases l with _ | ⟨x, _ | ⟨y, _ | ⟨z, t⟩⟩⟩ <;>
      simp_all [pairArg, listStrMax] <;> omega

theorem pairArg_size {arg : Option Expression} {p : Expression × Expression}
    (h : pairArg arg = some p) :
    optSize arg = 1 + (exprSize p.1 + exprSize p.2) := by
  obtain ⟨p1, p2⟩ := p
  rcases arg with _ | e
  · simp [pairArg] at h
  · cases e <;> simp_all [pairArg, optSize, exprSize]
    rename_i l
    rcases l with _ | ⟨x, _ | ⟨y, _ | ⟨z, t⟩⟩⟩ <;>
      simp_all [pairArg, listSize]

theorem goodPairArg_of_pairArg {arg : Option Expression}
    {p : Expression × Expression} (h : pairArg arg = some p) :
    goodPairArg arg = true := by
  rcases arg with _ | e
  · simp [pairArg] at h
  · cases e <;> simp_all [pairArg, goodPairArg]
    rename_i l
    rcases l with _ | ⟨x, _ | ⟨y, _ | ⟨z, t⟩⟩⟩ <;>
      simp_all [pairArg, goodPairArg]

/-- Whether `apply_method` itself prints a `Warning:` diagnostic to
stderr.  The warning branches of `apply_method` depend only on the method
name and the argument's shape, never on evaluated values, so the
diagnostic behaviour is modelled as this separate pure predicate. -/
def applyMethodWarns (method : String) (arg : Option Expression) : Bool :=
  if method = "contains" ∨ method = "starts_with" ∨ method = "startsWith" ∨
     method = "ends_with" ∨ method = "endsWith" ∨ method = "find" ∨
     method = "remove" ∨ method = "count" then
    !goodStrArg arg
  else if method = "repeat_sep" ∨ method = "repeatSep" ∨ method = "replace" then
    !goodPairArg arg
  else if method ∈ builtinMethods then false
  else true

/-- The `capitalize`/`cap` arm of `apply_method` (uppercase the first
character, keep the rest; empty base gives empty). -/
def methodCapitalize (base : String) : String :=
  match base.data with
  | [] => ""
  | c :: t => String.mk (Char.toUpper c :: t)

/-- The `contains` arm of `apply_method`. -/
def methodContains (base : String) (arg : Option Expression) : String :=
  match arg with
  | some (.str a) => if a = "" then base else boolString (containsSub base.data a.data)
  | _ => base

/-- The `starts_with`/`startsWith` arm of `apply_method`. -/
def methodStartsWith (base : String) (arg : Option Expression) : String :=
  match arg with
  | some (.str a) => if a = "" then base else boolString (a.data.isPrefixOf base.data)
  | _ => base

/-- The `ends_with`/`endsWith` arm of `apply_method`. -/
def methodEndsWith (base : String) (arg : Option Expression) : String :=
  match arg with
  | some (.str a) => if a = "" then base else boolString (a.data.isSuffixOf base.data)
  | _ => base

/-- The `find` arm of `apply_method`: byte index of the first occurrence,
`"-1"` when absent. -/
def methodFind (base : String) (arg : Option Expression) : String :=
  match arg with
  | some (.str a) =>
    if a = "" then base
    else
      match findSub base.data a.data with
      | some i => toString (utf8Len (base.data.take i))
      | none => "-1"
  | _ => base

/-- The `remove` arm of `apply_method`. -/
def methodRemove (base : String) (arg : Option Expression) : String :=
  match arg with
  | some (.str a) => if a = "" then base else String.mk (replaceAll a.data [] base.data)
  | _ => base

/-- The `count` arm of `apply_method`. -/
def methodCount (base : String) (arg : Option Expression) : String :=
  match arg with
  | some (.str a) => if a = "" then base else toString (countOcc a.data base.data)
  | _ => base

/-- The `repeat` arm of `apply_method`: a `Number` argument repeats that
many times (`i64` cast to `usize`), anything else defaults to 2. -/
def methodRepeat (base : String) (arg : Option Expression) : String :=
  match arg with
  | some (.num n) => repeatStr base (i64ToUsize n)
  | _ => repeatStr base 2

/-! ## Evaluator and template engine
(`src/runtime.rs` `eval_expression`/`apply_method`,
`src/template.rs` `eval_template`)

These three functions are mutually recursive exactly as in the source:
`eval_expression` sends string literals through `eval_template`, whose
markers are parsed by `parse_template_expr` and evaluated by
`eval_expression`; `apply_method` evaluates tuple arguments with
`eval_expression`.

The `LogicalOp`, `UnaryOp` and `Arithmetic` arms of `evalExpression` are
*Modelled from the spec*: the `eval_expression` in the `runtime.rs`
snapshot has no arms for these three `Expression` variants (its `match`
is not exhaustive over the AST of `ast.rs`), so their evaluation follows
spec section 4.4: logical operators evaluate both sides (no
short-circuit) and coerce each by the truthiness rule; `NOT` coerces and
negates; arithmetic applies `+ - * / %` to integer-parsed operand texts
(0 on parse failure — no claim depends on this arm). -/

/-- The per-connection variable store (`HashMap<String, String>`),
modelled as an association list where insertion prepends (lookup sees the
most recent binding). -/
abbrev VarMap := List (String × String)

theorem exprSize_pos (e : Expression) : 1 ≤ exprSize e := by
  cases e <;> simp [exprSize] <;> omega

/-- The truthiness coercion of `execute_statements` (runtime.rs line
276): `"true"` is true; `"false"`, `"0"` and empty text are false; any
other non-empty text is true. -/
def truthy (s : String) : Bool :=
  s == "true" || (s != "false" && s != "0" && !s.isEmpty)

mutual

/-- `eval_expression` (runtime.rs line 187): evaluate an expression to
text against a context of optional message, optional client, and the
variable store. -/
def evalExpression (e : Expression) (msg client : Option String) (vars : VarMap) :
    String :=
  match e with
  | .str s => String.mk (evalTemplateGo s.data [] msg client vars)
  | .var v =>
    if v = "message" then msg.getD ""
    else if v = "client" then client.getD ""
    else
      match vars.lookup v with
      | some val => val
      | none => "$" ++ v
  | .num n => toString n
  | .methodCall o m a =>
    applyMethod (evalExpression o msg client vars) m a msg client vars
  | .binaryOp l op r =>
    let leftVal := evalExpression l msg client vars
    let rightVal := evalExpression r msg client vars
    boolString
      (match parseF64 leftVal, parseF64 rightVal with
       | some a, some b => numCmpBool op a b
       | _, _ => strCmpBool op leftVal rightVal)
  | .tuple _ => ""
  | .logicalOp l op r =>
    let lb := truthy (evalExpression l msg client vars)
    let rb := truthy (evalExpression r msg client vars)
    boolString (match op with | .and => lb && rb | .or => lb || rb)
  | .unaryNot e1 =>
    boolString (!truthy (evalExpression e1 msg client vars))
  | .arith l op r =>
    let lv := (parseI64Chars (evalExpression l msg client vars).data).getD 0
    let rv := (parseI64Chars (evalExpression r msg client vars).data).getD 0
    toString
      (match op with
       | .add => lv + rv
       | .sub => lv - rv
       | .mul => lv * rv
       | .div => Int.div lv rv
       | .mod => Int.mod lv rv)
termination_by (exprStrMax e, 1 + 2 * exprSize e)
decreasing_by
  · exact Prod.Lex.right _ (by omega)
  · refine lexNatPair ?_ ?_
    · simp only [exprStrMax]
      exact Nat.le_max_left _ _
    · simp only [exprSize]
      omega
  · refine lexNatPair ?_ ?_
    · simp only [exprStrMax]
      exact Nat.le_max_right _ _
    · simp only [exprSize]
      have := exprSize_pos o
      omega
  · refine lexNatPair ?_ ?_
    · simp only [exprStrMax]
      exact Nat.le_max_left _ _
    · simp only [exprSize]
      omega
  · refine lexNatPair ?_ ?_
    · simp only [exprStrMax]
      exact Nat.le_max_right _ _
    · simp only [exprSize]
      omega
  · refine lexNatPair ?_ ?_
    · simp only [exprStrMax]
      exact Nat.le_max_left _ _
    · simp only [exprSize]
      omega
  · refine lexNatPair ?_ ?_
    · simp only [exprStrMax]
      exact Nat.le_max_right _ _
    · simp only [exprSize]
      omega
  · refine lexNatPair (Nat.le_refl _) ?_
    simp only [exprSize]
    omega
  · refine lexNatPair ?_ ?_
    · simp only [exprStrMax]
      exact Nat.le_max_left _ _
    · simp only [exprSize]
      omega
  · refine lexNatPair ?_ ?_
    · simp only [exprStrMax]
      exact Nat.le_max_right _ _
    · simp only [exprSize]
      omega

/-- `apply_method` (runtime.rs line 21): the built-in string-method
library.  Returns the method result, or the unmodified base text on an
unknown name or a wrong argument shape (diagnostics are modelled by
`applyMethodWarns`); the argument-shape handling of each arm lives in the
`method*` helpers. -/
def applyMethod (base : String) (method : String) (arg : Option Expression)
    (msg client : Option String) (vars : VarMap) : String :=
  if method = "reverse" then String.mk base.data.reverse
  else if method = "upper" then base.map Char.toUpper
  else if method = "lower" then base.map Char.toLower
  else if method = "length" ∨ method = "len" then toString base.utf8ByteSize
  else if method = "capitalize" ∨ method = "cap" then methodCapitalize base
  else if method = "contains" then methodContains base arg
  else if method = "starts_with" ∨ method = "startsWith" then methodStartsWith base arg
  else if method = "ends_with" ∨ method = "endsWith" then methodEndsWith base arg
  else if method = "find" then methodFind base arg
  else if method = "trim" then String.mk (trimChars base.data)
  else if method = "rtrim" then String.mk (trimEnd base.data)
  else if method = "ltrim" then String.mk (base.data.dropWhile rustIsWhitespace)
  else if method = "repeat" then methodRepeat base arg
  else if method = "repeat_sep" ∨ method = "repeatSep" then
    methodRepeatSep base arg msg client vars
  else if method = "replace" then methodReplace base arg msg client vars
  else if method = "remove" then methodRemove base arg
  else if method = "count" then methodCount base arg
  else if method = "is_empty" ∨ method = "isEmpty" then boolString base.isEmpty
  else if method = "typeof" ∨ method = "type_of" then typeofStr base
  else base
termination_by (optStrMax arg, 3 + 2 * optSize arg)
decreasing_by
  · exact lexNatPair (Nat.le_refl _) (by omega)
  · exact lexNatPair (Nat.le_refl _) (by omega)

/-- The `repeat_sep`/`repeatSep` arm of `apply_method`: a two-element
tuple argument gives count and separator (count parsed as `usize`, 0 on
failure; 0 yields the base unchanged); any other shape gives the base. -/
def methodRepeatSep (base : String) (arg : Option Expression)
    (msg client : Option String) (vars : VarMap) : String :=
  match h : pairArg arg with
  | some p => methodRepeatSepP base p.1 p.2 msg client vars
  | none => base
termination_by (optStrMax arg, 2 + 2 * optSize arg)
decreasing_by
  refine lexNatPair (pairArg_strMax h) ?_
  have := pairArg_size h
  omega

/-- The two-element-tuple case of the `repeat_sep` arm: count and
separator expressions (count parsed as `usize`, 0 on failure; 0 yields the
base unchanged). -/
def methodRepeatSepP (base : String) (a1 a2 : Expression)
    (msg client : Option String) (vars : VarMap) : String :=
  let timesStr := evalExpression a1 msg client vars
  let sep := evalExpression a2 msg client vars
  let times := (parseUsizeChars timesStr.data).getD 0
  if times = 0 then base
  else String.intercalate sep (List.replicate times base)
termination_by (max (exprStrMax a1) (exprStrMax a2), 1 + 2 * (exprSize a1 + exprSize a2))
decreasing_by
  · refine lexNatPair (Nat.le_max_left _ _) ?_
    have := exprSize_pos a2
    omega
  · refine lexNatPair (Nat.le_max_right _ _) ?_
    have := exprSize_pos a1
    omega

/-- The `replace` arm of `apply_method`: a two-element tuple argument
gives the from/to texts (both always evaluated); any other shape gives
the base. -/
def methodReplace (base : String) (arg : Option Expression)
    (msg client : Option String) (vars : VarMap) : String :=
  match h : pairArg arg with
  | some p => methodReplaceP base p.1 p.2 msg client vars
  | none => base
termination_by (optStrMax arg, 2 + 2 * optSize arg)
decreasing_by
  refine lexNatPair (pairArg_strMax h) ?_
  have := pairArg_size h
  omega

/-- The two-element-tuple case of the `replace` arm: from/to expressions
(both always evaluated). -/
def methodReplaceP (base : String) (a1 a2 : Expression)
    (msg client : Option String) (vars : VarMap) : String :=
  let fromStr := evalExpression a1 msg client vars
  let toStr := evalExpression a2 msg client vars
  String.mk (replaceAll fromStr.data toStr.data base.data)
termination_by (max (exprStrMax a1) (exprStrMax a2), 1 + 2 * (exprSize a1 + exprSize a2))
decreasing_by
  · refine lexNatPair (Nat.le_max_left _ _) ?_
    have := exprSize_pos a2
    omega
  · refine lexNatPair (Nat.le_max_right _ _) ?_
    have := exprSize_pos a1
    omega

/-- The `while let Some(start) = remaining.find("\x7b\x7b")` loop of
`eval_template` (template.rs line 232), with `result` as accumulator.
A marker with a matching close is parsed by `parse_template_expr`,
evaluated, and substituted; at a `\x7b\x7b` with no later `\x7d\x7d` the
loop pushes the rest and breaks, after which the function appends the
(unchanged) `remaining`. -/
def evalTemplateGo (remaining result : List Char) (msg client : Option String)
    (vars : VarMap) : List Char :=
  match hs : findSub remaining ['\x7b', '\x7b'] with
  | none => result ++ remaining
  | some start =>
    match he : findSub (remaining.drop start) ['\x7d', '\x7d'] with
    | none => result ++ remaining.take start ++ remaining.drop start ++ remaining
    | some e =>
      let exprStr := ((remaining.drop start).drop 2).take (e - 2)
      let ev := evalExpression (parseTemplateExpr exprStr) msg client vars
      evalTemplateGo ((remaining.drop start).drop (e + 2))
        (result ++ remaining.take start ++ ev.data) msg client vars
termination_by (remaining.length, 0)
decreasing_by
  · apply Prod.Lex.left
    have h1 := findSub_le hs
    have h2 := findSub_le he
    have h3 := parseTemplateExpr_strMax (((remaining.drop start).drop 2).take (e - 2))
    have h4 : (((remaining.drop start).drop 2).take (e - 2)).length ≤ e - 2 := by
      simp [List.length_take]
    have h5 : (remaining.drop start).length = remaining.length - start := by simp
    simp only [List.length_cons, List.length_nil] at h1 h2
    omega
  · apply Prod.Lex.left
    have h1 := findSub_le hs
    have h2 := findSub_le he
    have h5 : (remaining.drop start).length = remaining.length - start := by simp
    have h6 : ((remaining.drop start).drop (e + 2)).length =
        (remaining.drop start).length - (e + 2) := by
      simp
      omega
    simp only [List.length_cons, List.length_nil] at h1 h2
    omega

end

/-- `eval_template` (template.rs line 223). -/
def evalTemplate (s : String) (msg client : Option String) (vars : VarMap) : String :=
  String.mk (evalTemplateGo s.data [] msg client vars)

/-! ## Statements and the statement executor (`src/ast.rs`,
`src/runtime.rs` `execute_statements`) -/

/-- `ast.rs` `Statement`.  `If` carries `condition`, `then_body`,
`else_ifs` (an ordered list of condition/body pairs) and an optional
`else_body`, exactly as declared in `ast.rs` lines 19-24. -/
inductive Statement where
  | server : String → String → List Statement → Statement
  | onEvt : String → List Statement → Statement
  | log : Expression → Statement
  | send : Expression → Statement
  | setVar : String → Expression → Statement
  | ifStmt : Expression → List Statement →
      List (Expression × List Statement) → Option (List Statement) → Statement

/-- The observable effects of executing statements for one event of one
connection: the variable store, the texts printed by `Log`, and the texts
written to the socket by `Send` (each newline-terminated, as written). -/
structure ExecState where
  vars : VarMap
  logs : List String
  sent : List String

mutual

/-- One step of `execute_statements` (runtime.rs lines 256-303).  The
`If` arm mirrors the snapshot's pattern
`Statement::If { condition, then_body, else_body }`, which never binds or
consults the `else_ifs` field declared in `ast.rs` (as written the
pattern does not even compile against that AST): the condition's
truthiness selects `then_body`, otherwise `else_body` when present.
Console output other than `Log` lines (the `SET:`/`SENT:` traces) is not
modelled. -/
def execStmt (msg client : Option String) (stmt : Statement) (st : ExecState) :
    ExecState :=
  match stmt with
  | .setVar name value =>
    let ev := evalExpression value msg client st.vars
    { st with vars := (name, ev) :: st.vars }
  | .ifStmt condition thenBody _elseIfs elseBody =>
    let cr := evalExpression condition msg client st.vars
    if truthy cr then execStmts msg client thenBody st
    else
      match elseBody with
      | some els => execStmts msg client els st
      | none => st
  | .log e => { st with logs := st.logs ++ [evalExpression e msg client st.vars] }
  | .send e =>
    { st with sent := st.sent ++ [evalExpression e msg client st.vars ++ "\n"] }
  | .server _ _ _ => st
  | .onEvt _ _ => st

/-- `execute_statements`: execute a statement list in order, threading
the state. -/
def execStmts (msg client : Option String) (stmts : List Statement)
    (st : ExecState) : ExecState :=
  match stmts with
  | [] => st
  | s :: rest => execStmts msg client rest (execStmt msg client s st)

end

/-! ## Lexer (`src/lexer.rs`)

`token.rs` in the snapshot declares only a subset of the variants the
lexer constructs; the full token vocabulary below follows the tokens
`lexer.rs` pushes (operators, keywords and punctuation included), per
spec section 3.  The Rust `Peekable<Chars>` is transliterated with
`headD`/`tail` for peek/next.  Column arithmetic is transcribed exactly
as written, including the branches that do not advance the column. -/

/-- `lexer.rs` `LexError`, carrying 1-based line/column (and the
offending character where the Rust error does). -/
inductive LexError where
  | unterminatedString : Nat → Nat → LexError
  | invalidEscape : Nat → Nat → Char → LexError
  | unexpectedCharacter : Nat → Nat → Char → LexError
deriving DecidableEq, Repr

/-- The token vocabulary constructed by `lexer.rs`. -/
inductive Token where
  | ident : String → Token
  | str : String → Token
  | num : String → Token
  | varTok : String → Token
  | lbrace | rbrace | lparen | rparen | dot | comma | colon
  | plus | minus | star | percent | slash
  | equals | equalsEquals | notEquals | notTok | andTok | orTok
  | greaterThan | greaterEquals | lessThan | lessEquals
  | kwServer | kwTcp | kwOn | kwLog | kwSend | kwSet | kwIf | kwElse
  | eof
deriving DecidableEq, Repr

/-- Keyword resolution of the identifier branch (lexer.rs line 277). -/
def keywordOrIdent (s : String) : Token :=
  if s = "server" then Token.kwServer
  else if s = "tcp" then Token.kwTcp
  else if s = "on" then Token.kwOn
  else if s = "log" then Token.kwLog
  else if s = "send" then Token.kwSend
  else if s = "set" then Token.kwSet
  else if s = "if" then Token.kwIf
  else if s = "else" then Token.kwElse
  else Token.ident s

/-- The inner loop of the lexer's `read_method_chain` (lexer.rs line 70):
push every character up to and including the next `)` (or to the end of
input). -/
def lexMethodInner : List Char → List Char × List Char
  | [] => ([], [])
  | m :: rest =>
    if m = ')' then ([m], rest)
    else
      let s := lexMethodInner rest
      (m :: s.1, s.2)

theorem lexMethodInner_rest_le (l : List Char) :
    (lexMethodInner l).2.length ≤ l.length := by
  induction l with
  | nil => simp [lexMethodInner]
  | cons m rest ih =>
    rw [lexMethodInner]
    split
    · simp
    · simpa using Nat.le_succ_of_le ih

theorem lexMethodInner_lt (c : Char) (rest : List Char) :
    (lexMethodInner rest).2.length < (c :: rest).length := by
  have := lexMethodInner_rest_le rest
  simp only [List.length_cons]
  omega

/-- `read_method_chain` (lexer.rs line 60): while the next character is
`.`, collect it and everything up to the next `)` verbatim (quotes and
newlines included). -/
def lexMethodChain (l : List Char) : List Char × List Char :=
  match l with
  | '.' :: rest =>
    let inner := lexMethodInner rest
    let next := lexMethodChain inner.2
    ('.' :: (inner.1 ++ next.1), next.2)
  | _ => ([], l)
termination_by l.length
decreasing_by
  exact lexMethodInner_lt _ _

theorem lexMethodChain_rest_le :
    ∀ (n : Nat) (l : List Char), l.length ≤ n →
      (lexMethodChain l).2.length ≤ l.length := by
  intro n
  induction n with
  | zero =>
    intro l hl
    have : l = [] := List.length_eq_zero.mp (Nat.le_zero.mp hl)
    subst this
    rw [lexMethodChain.eq_def]
  | succ m ih =>
    intro l hl
    rw [lexMethodChain.eq_def]
    split
    · rename_i rest
      dsimp only
      have h1 := lexMethodInner_rest_le rest
      have h2 := ih (lexMethodInner rest).2
        (by simp only [List.length_cons] at hl; omega)
      simp only [List.length_cons]
      omega
    · exact Nat.le_refl _

/-- The depth-tracking scan of the in-string `$`-brace interpolation
branch (lexer.rs lines 226-240): returns the characters appended to the
string contents (the matching close brace becomes two close braces), the
remaining input, and the number of characters consumed. -/
def scanInterp : List Char → Nat → List Char × List Char × Nat
  | [], _ => ([], [], 0)
  | ch :: rest, depth =>
    if ch = '\x7b' then
      let s := scanInterp rest (depth + 1)
      (ch :: s.1, s.2.1, s.2.2 + 1)
    else if ch = '\x7d' then
      if depth = 1 then (['\x7d', '\x7d'], rest, 1)
      else
        let s := scanInterp rest (depth - 1)
        (ch :: s.1, s.2.1, s.2.2 + 1)
    else
      let s := scanInterp rest depth
      (ch :: s.1, s.2.1, s.2.2 + 1)

theorem scanInterp_rest_le (l : List Char) (depth : Nat) :
    (scanInterp l depth).2.1.length ≤ l.length := by
  induction l generalizing depth with
  | nil => simp [scanInterp]
  | cons ch rest ih =>
    rw [scanInterp]
    split
    · have := ih (depth + 1)
      dsimp only
      simp only [List.length_cons]
      omega
    · split
      · split
        · simp
        · have := ih (depth - 1)
          dsimp only
          simp only [List.length_cons]
          omega
      · have := ih depth
        dsimp only
        simp only [List.length_cons]
        omega

/-! Name-free strict bounds used by the lexer's termination proofs. -/

theorem consSelf_lt (c : Char) (l : List Char) : l.length < (c :: l).length := by
  simp

theorem consTail_lt (c : Char) (l : List Char) : l.tail.length < (c :: l).length := by
  cases l <;> simp <;> omega

theorem consDropWhile_lt (p : Char → Bool) (c : Char) (l : List Char) :
    (l.dropWhile p).length < (c :: l).length := by
  have := dropWhile_length_le p l
  simp only [List.length_cons]
  omega

theorem consDropWhileTail_lt (p : Char → Bool) (c : Char) (l : List Char) :
    (l.tail.dropWhile p).length < (c :: l).length := by
  have h1 := dropWhile_length_le p l.tail
  have h2 : l.tail.length ≤ l.length := by cases l <;> simp
  simp only [List.length_cons]
  omega

theorem consScanInterpTail_lt (c : Char) (l : List Char) (d : Nat) :
    (scanInterp l.tail d).2.1.length < (c :: l).length := by
  have h1 := scanInterp_rest_le l.tail d
  have h2 : l.tail.length ≤ l.length := by cases l <;> simp
  simp only [List.length_cons]
  omega

theorem consChainDropWhile_lt (p : Char → Bool) (c : Char) (l : List Char) :
    (lexMethodChain (l.dropWhile p)).2.length < (c :: l).length := by
  have h1 := dropWhile_length_le p l
  have h2 := lexMethodChain_rest_le (l.dropWhile p).length (l.dropWhile p)
    (Nat.le_refl _)
  simp only [List.length_cons]
  omega

mutual

/-- The main scanning loop of `lex` (lexer.rs lines 84-319) plus the
final `EOF` push and `Ok`.  Column arithmetic is exactly the source's:
the single-character punctuation branches (`{ } ( ) : . , + - * %`)
push their token without advancing the column, while the slash, operator,
string, identifier, number and whitespace branches advance as written. -/
def lexLoop (l : List Char) (line col : Nat) (acc : List Token) :
    Except LexError (List Token) :=
  match l with
  | [] => .ok (acc ++ [Token.eof])
  | c :: rest =>
    if c = '/' then
      if rest.headD ' ' = '/' then
        lexLoop (rest.tail.dropWhile (· ≠ '\n')) line
          (col + (rest.tail.takeWhile (· ≠ '\n')).length) acc
      else lexLoop rest line (col + 1) (acc ++ [Token.slash])
    else if c = '\x7b' then lexLoop rest line col (acc ++ [Token.lbrace])
    else if c = '\x7d' then lexLoop rest line col (acc ++ [Token.rbrace])
    else if c = '(' then lexLoop rest line col (acc ++ [Token.lparen])
    else if c = ')' then lexLoop rest line col (acc ++ [Token.rparen])
    else if c = ':' then lexLoop rest line col (acc ++ [Token.colon])
    else if c = '.' then lexLoop rest line col (acc ++ [Token.dot])
    else if c = ',' then lexLoop rest line col (acc ++ [Token.comma])
    else if c = '+' then lexLoop rest line col (acc ++ [Token.plus])
    else if c = '-' then lexLoop rest line col (acc ++ [Token.minus])
    else if c = '*' then lexLoop rest line col (acc ++ [Token.star])
    else if c = '%' then lexLoop rest line col (acc ++ [Token.percent])
    else if c = '=' then
      if rest.headD ' ' = '=' then
        lexLoop rest.tail line (col + 2) (acc ++ [Token.equalsEquals])
      else lexLoop rest line (col + 1) (acc ++ [Token.equals])
    else if c = '&' then
      if rest.headD ' ' = '&' then
        lexLoop rest.tail line (col + 2) (acc ++ [Token.andTok])
      else .error (.unexpectedCharacter line col c)
    else if c = '|' then
      if rest.headD ' ' = '|' then
        lexLoop rest.tail line (col + 2) (acc ++ [Token.orTok])
      else .error (.unexpectedCharacter line col c)
    else if c = '!' then
      if rest.headD ' ' = '=' then
        lexLoop rest.tail line (col + 2) (acc ++ [Token.notEquals])
      else lexLoop rest line (col + 1) (acc ++ [Token.notTok])
    else if c = '>' then
      if rest.headD ' ' = '=' then
        lexLoop rest.tail line (col + 2) (acc ++ [Token.greaterEquals])
      else lexLoop rest line (col + 1) (acc ++ [Token.greaterThan])
    else if c = '<' then
      if rest.headD ' ' = '=' then
        lexLoop rest.tail line (col + 2) (acc ++ [Token.lessEquals])
      else lexLoop rest line (col + 1) (acc ++ [Token.lessThan])
    else if c = '"' then
      lexString line col line rest (col + 1) [] acc
    else if c = '$' then
      lexLoop (rest.dropWhile isIdentChar) line
        (col + 1 + (rest.takeWhile isIdentChar).length)
        (acc ++ [Token.varTok (String.mk (rest.takeWhile isIdentChar))])
    else if c.isAlpha then
      lexLoop (rest.dropWhile isIdentChar) line
        (col + 1 + (rest.takeWhile isIdentChar).length)
        (acc ++ [keywordOrIdent (String.mk (c :: rest.takeWhile isIdentChar))])
    else if c.isDigit then
      lexLoop (rest.dropWhile Char.isDigit) line
        (col + 1 + (rest.takeWhile Char.isDigit).length)
        (acc ++ [Token.num (String.mk (c :: rest.takeWhile Char.isDigit))])
    else if c = '\n' then lexLoop rest (line + 1) 1 acc
    else if rustIsWhitespace c then lexLoop rest line (col + 1) acc
    else if c = ',' ∨ c = ';' then lexLoop rest line (col + 1) acc
    else .error (.unexpectedCharacter line col c)
termination_by (l.length, 0)
decreasing_by
  all_goals apply Prod.Lex.left
  all_goals
    first
    | exact consSelf_lt _ _
    | exact consTail_lt _ _
    | exact consDropWhile_lt _ _ _
    | exact consDropWhileTail_lt _ _ _

/-- The string-literal loop of `lex` (lexer.rs lines 172-263).
`ssl`/`ssc` are the line/column recorded at the opening quote; `line` is
the current line (never advanced inside a string, even when an
interpolation scan consumes a newline); `col` advances by one per
consumed character.  At the closing quote the string token is pushed and
the main loop resumes — exactly the control flow of the Rust `while`
inside the `'"'` match arm. -/
def lexString (ssl ssc line : Nat) (l : List Char) (col : Nat) (acc : List Char)
    (toks : List Token) : Except LexError (List Token) :=
  match l with
  | [] => .error (.unterminatedString ssl ssc)
  | ch :: rest =>
    let col := col + 1
    if ch = '"' then
      lexLoop rest line col (toks ++ [Token.str (String.mk acc)])
    else if ch = '\n' then .error (.unterminatedString ssl ssc)
    else if ch = '\\' then
      if rest.isEmpty then .error (.unterminatedString ssl ssc)
      else
        let nc := rest.headD ' '
        let col := col + 1
        if nc = 'n' then lexString ssl ssc line rest.tail col (acc ++ ['\n']) toks
        else if nc = 't' then lexString ssl ssc line rest.tail col (acc ++ ['\t']) toks
        else if nc = 'r' then lexString ssl ssc line rest.tail col (acc ++ ['\r']) toks
        else if nc = '\\' then lexString ssl ssc line rest.tail col (acc ++ ['\\']) toks
        else if nc = '"' then lexString ssl ssc line rest.tail col (acc ++ ['"']) toks
        else .error (.invalidEscape line (col - 1) nc)
    else if ch = '$' then
      if rest.headD ' ' = '\x7b' then
        lexString ssl ssc line (scanInterp rest.tail 1).2.1
          (col + 1 + (scanInterp rest.tail 1).2.2)
          (acc ++ ['\x7b', '\x7b', '$', '\x7b'] ++ (scanInterp rest.tail 1).1) toks
      else
        lexString ssl ssc line (lexMethodChain (rest.dropWhile isIdentChar)).2
          (col + (rest.takeWhile isIdentChar).length +
            (lexMethodChain (rest.dropWhile isIdentChar)).1.length)
          (acc ++ ['\x7b', '\x7b', '$'] ++ rest.takeWhile isIdentChar ++
            (lexMethodChain (rest.dropWhile isIdentChar)).1 ++ ['\x7d', '\x7d'])
          toks
    else lexString ssl ssc line rest col (acc ++ [ch]) toks
termination_by (l.length, 1)
decreasing_by
  all_goals apply Prod.Lex.left
  all_goals
    first
    | exact consSelf_lt _ _
    | exact consTail_lt _ _
    | exact consScanInterpTail_lt _ _ _
    | exact consChainDropWhile_lt _ _ _

end

/-- `lex` (lexer.rs line 37): scan a whole source string, 1-based line
and column both starting at 1. -/
def lex (s : String) : Except LexError (List Token) :=
  lexLoop s.data 1 1 []

/-! ## General evaluation lemmas -/

theorem stringMkData (s : String) : String.mk s.data = s := rfl

/-- When the remaining text holds no open marker, the template loop
finishes by appending it to the collected result. -/
theorem evalTemplateGo_none {remaining : List Char} (result : List Char)
    (msg client : Option String) (vars : VarMap)
    (h : findSub remaining ['\x7b', '\x7b'] = none) :
    evalTemplateGo remaining result msg client vars = result ++ remaining := by
  rw [evalTemplateGo.eq_def, h]

theorem evalExpression_str (s : String) (msg client : Option String) (vars : VarMap) :
    evalExpression (Expression.str s) msg client vars =
      String.mk (evalTemplateGo s.data [] msg client vars) := by
  rw [evalExpression.eq_def]

/-- A string literal with no `\x7b\x7b` marker evaluates to itself. -/
theorem evalExpression_str_plain {s : String} (msg client : Option String)
    (vars : VarMap) (h : findSub s.data ['\x7b', '\x7b'] = none) :
    evalExpression (Expression.str s) msg client vars = s := by
  rw [evalExpression_str, evalTemplateGo_none _ _ _ _ h, List.nil_append, stringMkData]

/-! ## Single-step evaluation lemmas for the lexer

The well-founded definitions do not reduce definitionally, so concrete
runs are evaluated through these per-branch unfolding lemmas. -/

set_option maxHeartbeats 4000000 in
theorem lexLoop_nil (line col : Nat) (acc : List Token) :
    lexLoop [] line col acc = .ok (acc ++ [Token.eof]) := by
  rw [lexLoop.eq_def]

theorem lexLoop_lparen (rest : List Char) (line col : Nat) (acc : List Token) :
    lexLoop ('(' :: rest) line col acc =
      lexLoop rest line col (acc ++ [Token.lparen]) := by
  rw [lexLoop.eq_def]
  simp

theorem lexLoop_atSign (rest : List Char) (line col : Nat) (acc : List Token) :
    lexLoop ('@' :: rest) line col acc =
      .error (.unexpectedCharacter line col '@') := by
  rw [lexLoop.eq_def]
  simp [rustIsWhitespace]

theorem lexLoop_quote (rest : List Char) (line col : Nat) (acc : List Token) :
    lexLoop ('"' :: rest) line col acc =
      lexString line col line rest (col + 1) [] acc := by
  rw [lexLoop.eq_def]
  simp

set_option maxHeartbeats 4000000 in
theorem lexString_nil (ssl ssc line col : Nat) (acc : List Char) (toks : List Token) :
    lexString ssl ssc line [] col acc toks = .error (.unterminatedString ssl ssc) := by
  rw [lexString.eq_def]

theorem lexString_quote (ssl ssc line : Nat) (rest : List Char) (col : Nat)
    (acc : List Char) (toks : List Token) :
    lexString ssl ssc line ('"' :: rest) col acc toks =
      lexLoop rest line (col + 1) (toks ++ [Token.str (String.mk acc)]) := by
  rw [lexString.eq_def]
  simp

theorem lexString_newline (ssl ssc line : Nat) (rest : List Char) (col : Nat)
    (acc : List Char) (toks : List Token) :
    lexString ssl ssc line ('\n' :: rest) col acc toks =
      .error (.unterminatedString ssl ssc) := by
  rw [lexString.eq_def]
  simp

theorem lexString_backslash_eof (ssl ssc line col : Nat) (acc : List Char)
    (toks : List Token) :
    lexString ssl ssc line ['\\'] col acc toks =
      .error (.unterminatedString ssl ssc) := by
  rw [lexString.eq_def]
  simp

theorem lexString_escape (ssl ssc line : Nat) (nc : Char) (rest2 : List Char)
    (col : Nat) (acc : List Char) (toks : List Token) :
    lexString ssl ssc line ('\\' :: nc :: rest2) col acc toks =
      (if nc = 'n' then lexString ssl ssc line rest2 (col + 1 + 1) (acc ++ ['\n']) toks
       else if nc = 't' then lexString ssl ssc line rest2 (col + 1 + 1) (acc ++ ['\t']) toks
       else if nc = 'r' then lexString ssl ssc line rest2 (col + 1 + 1) (acc ++ ['\r']) toks
       else if nc = '\\' then lexString ssl ssc line rest2 (col + 1 + 1) (acc ++ ['\\']) toks
       else if nc = '"' then lexString ssl ssc line rest2 (col + 1 + 1) (acc ++ ['"']) toks
       else .error (.invalidEscape line (col + 1) nc)) := by
  rw [lexString.eq_def]
  simp

theorem lexString_ordinary {ch : Char} (ssl ssc line : Nat) (rest : List Char)
    (col : Nat) (acc : List Char) (toks : List Token)
    (h1 : ch ≠ '"') (h2 : ch ≠ '\n') (h3 : ch ≠ '\\') (h4 : ch ≠ '$') :
    lexString ssl ssc line (ch :: rest) col acc toks =
      lexString ssl ssc line rest (col + 1) (acc ++ [ch]) toks := by
  rw [lexString.eq_def]
  simp [h1, h2, h3, h4]

/-! ## Single-step evaluation lemmas for the evaluator -/

set_option maxHeartbeats 2000000 in
theorem evalExpression_var (v : String) (msg client : Option String) (vars : VarMap) :
    evalExpression (Expression.var v) msg client vars =
      (if v = "message" then msg.getD ""
       else if v = "client" then client.getD ""
       else
         match vars.lookup v with
         | some val => val
         | none => "$" ++ v) := by
  rw [evalExpression.eq_def]

theorem evalExpression_methodCall (o : Expression) (m : String)
    (a : Option Expression) (msg client : Option String) (vars : VarMap) :
    evalExpression (Expression.methodCall o m a) msg client vars =
      applyMethod (evalExpression o msg client vars) m a msg client vars := by
  rw [evalExpression.eq_def]

theorem evalExpression_binaryOp (l : Expression) (op : BinOp) (r : Expression)
    (msg client : Option String) (vars : VarMap) :
    evalExpression (Expression.binaryOp l op r) msg client vars =
      boolString
        (match parseF64 (evalExpression l msg client vars),
               parseF64 (evalExpression r msg client vars) with
         | some a, some b => numCmpBool op a b
         | _, _ => strCmpBool op (evalExpression l msg client vars)
             (evalExpression r msg client vars)) := by
  rw [evalExpression.eq_def]

theorem evalExpression_logicalOp (l : Expression) (op : LogOp) (r : Expression)
    (msg client : Option String) (vars : VarMap) :
    evalExpression (Expression.logicalOp l op r) msg client vars =
      boolString
        (match op with
         | LogOp.and => truthy (evalExpression l msg client vars) &&
             truthy (evalExpression r msg client vars)
         | LogOp.or => truthy (evalExpression l msg client vars) ||
             truthy (evalExpression r msg client vars)) := by
  rw [evalExpression.eq_def]

theorem containsSub_false_findSub {l pat : List Char}
    (h : containsSub l pat = false) : findSub l pat = none := by
  unfold containsSub at h
  cases hf : findSub l pat with
  | none => rfl
  | some i => rw [hf] at h; simp at h

/-! ## The claims -/

theorem evalTemplateGo_unterminated {remaining : List Char} {i : Nat}
    (result : List Char) (msg client : Option String) (vars : VarMap)
    (hopen : findSub remaining ['\x7b', '\x7b'] = some i)
    (hclose : findSub (remaining.drop i) ['\x7d', '\x7d'] = none) :
    evalTemplateGo remaining result msg client vars =
      result ++ remaining ++ remaining := by
  rw [evalTemplateGo.eq_def]
  split
  · rename_i h
    rw [hopen] at h
    simp at h
  · rename_i start h
    rw [hopen] at h
    rw [show start = i from (Option.some.inj h).symm] at *
    split
    · simp only [List.append_assoc, List.take_append_drop]
    · rename_i e h2
      rw [hclose] at h2
      simp at h2

/-- C2 (counterexample): the claim says an unterminated marker passes the
remainder through verbatim exactly once, predicting `eval_template`
output `\x7b\x7bx` on input `\x7b\x7bx`; the code emits the remainder
twice. -/
theorem claim2_counterexample :
    evalTemplate "\x7b\x7bx" none none [] = "\x7b\x7bx\x7b\x7bx" ∧
    ("\x7b\x7bx\x7b\x7bx" : String) ≠ "\x7b\x7bx" := by
  constructor
  · rw [evalTemplate,
      evalTemplateGo_unterminated [] none none [] (i := 0) (by decide) (by decide)]
    decide
  · decide

/-- C2 (amended): when the template loop meets a `\x7b\x7b` with no later
`\x7d\x7d`, no error is raised and the output is the already-processed
prefix (`result`) followed by the whole unprocessed remainder emitted
twice — the loop pushes the pre-marker text and the marker's tail, breaks,
and then appends the (unchanged) remainder once more. -/
theorem claim2_unterminated_marker_passthrough (remaining result : List Char)
    (msg client : Option String) (vars : VarMap) (i : Nat)
    (hopen : findSub remaining ['\x7b', '\x7b'] = some i)
    (hclose : findSub (remaining.drop i) ['\x7d', '\x7d'] = none) :
    evalTemplateGo remaining result msg client vars =
      result ++ remaining ++ remaining :=
  evalTemplateGo_unterminated result msg client vars hopen hclose

/-- C2 witness: the amended statement at the concrete input `\x7b\x7bx`. -/
theorem claim2_unterminated_marker_passthrough_witness :
    findSub "\x7b\x7bx".data ['\x7b', '\x7b'] = some 0 ∧
    findSub ("\x7b\x7bx".data.drop 0) ['\x7d', '\x7d'] = none ∧
    evalTemplateGo "\x7b\x7bx".data [] none none [] =
      [] ++ "\x7b\x7bx".data ++ "\x7b\x7bx".data :=
  ⟨by decide, by decide,
    claim2_unterminated_marker_passthrough "\x7b\x7bx".data [] none none [] 0
      (by decide) (by decide)⟩

/-- C3: `LogicalOp` evaluation (modelled from spec section 4.4, the
`runtime.rs` snapshot having no arm for it) always evaluates both
operands, coerces each by the truthiness rule — `"true"` is true;
`"false"`, `"0"` and empty text are false; any other non-empty text is
true — applies AND/OR, and renders the boolean as `"true"`/`"false"`. -/
theorem claim3_logicalOp_truthiness :
    (∀ (l r : Expression) (op : LogOp) (msg client : Option String) (vars : VarMap),
      evalExpression (Expression.logicalOp l op r) msg client vars =
        boolString
          (match op with
           | LogOp.and => truthy (evalExpression l msg client vars) &&
               truthy (evalExpression r msg client vars)
           | LogOp.or => truthy (evalExpression l msg client vars) ||
               truthy (evalExpression r msg client vars))) ∧
    (∀ s : String,
      truthy s = true ↔ (s = "true" ∨ (s ≠ "false" ∧ s ≠ "0" ∧ s ≠ ""))) ∧
    (∀ (l r : Expression) (op : LogOp) (msg client : Option String) (vars : VarMap),
      evalExpression (Expression.logicalOp l op r) msg client vars = "true" ∨
      evalExpression (Expression.logicalOp l op r) msg client vars = "false") := by
  refine ⟨fun l r op msg client vars => evalExpression_logicalOp l op r msg client vars,
    ?_, ?_⟩
  · intro s
    have hise : s.isEmpty = true ↔ s = "" := by
      simpa using String.isEmpty_iff s
    simp only [truthy, Bool.or_eq_true, Bool.and_eq_true, beq_iff_eq, bne_iff_ne,
      Bool.not_eq_true']
    rw [show (s.isEmpty = false) ↔ ¬(s.isEmpty = true) by simp]
    rw [hise]
    tauto
  · intro l r op msg client vars
    rw [evalExpression_logicalOp]
    cases hmatch : (match op with
      | LogOp.and => truthy (evalExpression l msg client vars) &&
          truthy (evalExpression r msg client vars)
      | LogOp.or => truthy (evalExpression l msg client vars) ||
          truthy (evalExpression r msg client vars)) with
    | true => exact Or.inl (by simp [boolString])
    | false => exact Or.inr (by simp [boolString])

/-- C5: `BinaryOp` evaluates both operands to text; when both parse as
floating-point numbers (exact-value model of `f64::from_str` with IEEE
infinity/NaN markers; rounding of over-long literals not modelled) the
comparison is numeric, otherwise it is Rust's lexicographic `String`
order on the raw text; in particular `"10" > "9"` is `"true"` and
`"abc" > "abd"` is `"false"`. -/
theorem claim5_binaryOp_comparison :
    (∀ (l r : Expression) (op : BinOp) (msg client : Option String)
       (vars : VarMap) (a b : FVal),
      parseF64 (evalExpression l msg client vars) = some a →
      parseF64 (evalExpression r msg client vars) = some b →
      evalExpression (Expression.binaryOp l op r) msg client vars =
        boolString (numCmpBool op a b)) ∧
    (∀ (l r : Expression) (op : BinOp) (msg client : Option String) (vars : VarMap),
      parseF64 (evalExpression l msg client vars) = none ∨
      parseF64 (evalExpression r msg client vars) = none →
      evalExpression (Expression.binaryOp l op r) msg client vars =
        boolString (strCmpBool op (evalExpression l msg client vars)
          (evalExpression r msg client vars))) ∧
    evalExpression (Expression.binaryOp (Expression.str "10") BinOp.gt
      (Expression.str "9")) none none [] = "true" ∧
    evalExpression (Expression.binaryOp (Expression.str "abc") BinOp.gt
      (Expression.str "abd")) none none [] = "false" := by
  refine ⟨?_, ?_, ?_, ?_⟩
  · intro l r op msg client vars a b ha hb
    rw [evalExpression_binaryOp, ha, hb]
  · intro l r op msg client vars h
    rw [evalExpression_binaryOp]
    cases hl : parseF64 (evalExpression l msg client vars) with
    | none => rfl
    | some a =>
      cases hr : parseF64 (evalExpression r msg client vars) with
      | none => rfl
      | some b =>
        rw [hl] at h
        rw [hr] at h
        rcases h with h | h <;> exact absurd h (by simp)
  · rw [evalExpression_binaryOp,
      evalExpression_str_plain none none [] (by decide),
      evalExpression_str_plain none none [] (by decide)]
    decide
  · rw [evalExpression_binaryOp,
      evalExpression_str_plain none none [] (by decide),
      evalExpression_str_plain none none [] (by decide)]
    decide

/-- C6: `Variable("message")`/`Variable("client")` resolve to the context
values (empty text when absent) regardless of any user binding of those
names; any other variable resolves to its binding, or renders as
`"$name"` when unbound, never erroring. -/
theorem claim6_variable_resolution :
    (∀ (msg client : Option String) (vars : VarMap),
      evalExpression (Expression.var "message") msg client vars = msg.getD "" ∧
      evalExpression (Expression.var "client") msg client vars = client.getD "") ∧
    (∀ (name : String) (msg client : Option String) (vars : VarMap),
      name ≠ "message" → name ≠ "client" →
      evalExpression (Expression.var name) msg client vars =
        (vars.lookup name).getD ("$" ++ name)) ∧
    evalExpression (Expression.var "message") (some "hi") none
      [("message", "user")] = "hi" := by
  refine ⟨?_, ?_, ?_⟩
  · intro msg client vars
    constructor
    · rw [evalExpression_var]
      simp
    · rw [evalExpression_var]
      simp
  · intro name msg client vars h1 h2
    rw [evalExpression_var]
    simp only [h1, h2, if_false]
    cases vars.lookup name <;> rfl
  · rw [evalExpression_var]
    simp

/-- C6 witness: the unbound- and bound-variable cases at concrete
inputs. -/
theorem claim6_variable_resolution_witness :
    (("x" : String) ≠ "message") ∧ (("x" : String) ≠ "client") ∧
    evalExpression (Expression.var "x") none none [("y", "1")] =
      ((([("y", "1")] : VarMap).lookup "x").getD ("$" ++ "x")) :=
  ⟨by decide, by decide,
    (claim6_variable_resolution.2.1) "x" none none [("y", "1")]
      (by decide) (by decide)⟩

/-- C9: a string with no `\x7b\x7b` interpolation marker (and no escape
sequences — escapes are decoded by the lexer, so none reach the template
engine) evaluates to itself under every context. -/
theorem claim9_template_roundtrip (s : String) (msg client : Option String)
    (vars : VarMap)
    (hmark : containsSub s.data ['\x7b', '\x7b'] = false)
    (hesc : containsSub s.data ['\\'] = false) :
    evalTemplate s msg client vars = s := by
  rw [evalTemplate,
    evalTemplateGo_none [] msg client vars (containsSub_false_findSub hmark),
    List.nil_append, stringMkData]

/-- C9 witness: the round-trip at a concrete literal and context. -/
theorem claim9_template_roundtrip_witness :
    containsSub "hello world".data ['\x7b', '\x7b'] = false ∧
    containsSub "hello world".data ['\\'] = false ∧
    evalTemplate "hello world" (some "m") (some "c") [("x", "1")] = "hello world" :=
  ⟨by decide, by decide,
    claim9_template_roundtrip "hello world" (some "m") (some "c") [("x", "1")]
      (by decide) (by decide)⟩

/-! ## Single-step evaluation lemmas for `apply_method` -/

set_option maxHeartbeats 4000000 in
theorem applyMethod_contains (base : String) (arg : Option Expression)
    (msg client : Option String) (vars : VarMap) :
    applyMethod base "contains" arg msg client vars = methodContains base arg := by
  rw [applyMethod.eq_def]
  simp

theorem applyMethod_startsWith (base : String) (arg : Option Expression)
    (msg client : Option String) (vars : VarMap) :
    applyMethod base "starts_with" arg msg client vars = methodStartsWith base arg := by
  rw [applyMethod.eq_def]
  simp

theorem applyMethod_endsWith (base : String) (arg : Option Expression)
    (msg client : Option String) (vars : VarMap) :
    applyMethod base "ends_with" arg msg client vars = methodEndsWith base arg := by
  rw [applyMethod.eq_def]
  simp

theorem applyMethod_find (base : String) (arg : Option Expression)
    (msg client : Option String) (vars : VarMap) :
    applyMethod base "find" arg msg client vars = methodFind base arg := by
  rw [applyMethod.eq_def]
  simp

theorem applyMethod_remove (base : String) (arg : Option Expression)
    (msg client : Option String) (vars : VarMap) :
    applyMethod base "remove" arg msg client vars = methodRemove base arg := by
  rw [applyMethod.eq_def]
  simp

theorem applyMethod_count (base : String) (arg : Option Expression)
    (msg client : Option String) (vars : VarMap) :
    applyMethod base "count" arg msg client vars = methodCount base arg := by
  rw [applyMethod.eq_def]
  simp

theorem applyMethod_repeat (base : String) (arg : Option Expression)
    (msg client : Option String) (vars : VarMap) :
    applyMethod base "repeat" arg msg client vars = methodRepeat base arg := by
  rw [applyMethod.eq_def]
  simp

theorem applyMethod_repeatSep (base : String) (arg : Option Expression)
    (msg client : Option String) (vars : VarMap) :
    applyMethod base "repeat_sep" arg msg client vars =
      methodRepeatSep base arg msg client vars := by
  rw [applyMethod.eq_def]
  simp

theorem applyMethod_replace (base : String) (arg : Option Expression)
    (msg client : Option String) (vars : VarMap) :
    applyMethod base "replace" arg msg client vars =
      methodReplace base arg msg client vars := by
  rw [applyMethod.eq_def]
  simp

theorem applyMethod_unknown (base method : String) (arg : Option Expression)
    (msg client : Option String) (vars : VarMap) (h : method ∉ builtinMethods) :
    applyMethod base method arg msg client vars = base := by
  simp only [builtinMethods, List.mem_cons, List.not_mem_nil, or_false, not_or] at h
  obtain ⟨h1, h2, h3, h4, h5, h6, h7, h8, h9, h10, h11, h12, h13, h14, h15, h16,
    h17, h18, h19, h20, h21, h22, h23, h24, h25, h26⟩ := h
  rw [applyMethod.eq_def]
  simp [h1, h2, h3, h4, h5, h6, h7, h8, h9, h10, h11, h12, h13, h14, h15, h16,
    h17, h18, h19, h20, h21, h22, h23, h24, h25, h26]

theorem applyMethodWarns_unknown (method : String) (arg : Option Expression)
    (h : method ∉ builtinMethods) : applyMethodWarns method arg = true := by
  have hmem := h
  simp only [builtinMethods, List.mem_cons, List.not_mem_nil, or_false, not_or] at h
  obtain ⟨h1, h2, h3, h4, h5, h6, h7, h8, h9, h10, h11, h12, h13, h14, h15, h16,
    h17, h18, h19, h20, h21, h22, h23, h24, h25, h26⟩ := h
  rw [applyMethodWarns]
  simp [h8, h9, h10, h11, h12, h13, h21, h22, h18, h19, h20, hmem]

theorem repeatStr_two (s : String) : repeatStr s 2 = s ++ s := by
  apply String.ext
  simp [repeatStr, String.join, List.replicate]

/-- Any argument that is not a nonempty string literal takes the
fail-soft path of `contains`. -/
theorem methodContains_bad (base : String) (arg : Option Expression)
    (hg : goodStrArg arg = false) : methodContains base arg = base := by
  rw [methodContains.eq_def]
  rcases arg with _ | e
  · rfl
  · cases e <;> simp_all [goodStrArg]

theorem methodStartsWith_bad (base : String) (arg : Option Expression)
    (hg : goodStrArg arg = false) : methodStartsWith base arg = base := by
  rw [methodStartsWith.eq_def]
  rcases arg with _ | e
  · rfl
  · cases e <;> simp_all [goodStrArg]

theorem methodEndsWith_bad (base : String) (arg : Option Expression)
    (hg : goodStrArg arg = false) : methodEndsWith base arg = base := by
  rw [methodEndsWith.eq_def]
  rcases arg with _ | e
  · rfl
  · cases e <;> simp_all [goodStrArg]

theorem methodFind_bad (base : String) (arg : Option Expression)
    (hg : goodStrArg arg = false) : methodFind base arg = base := by
  rw [methodFind.eq_def]
  rcases arg with _ | e
  · rfl
  · cases e <;> simp_all [goodStrArg]

theorem methodRemove_bad (base : String) (arg : Option Expression)
    (hg : goodStrArg arg = false) : methodRemove base arg = base := by
  rw [methodRemove.eq_def]
  rcases arg with _ | e
  · rfl
  · cases e <;> simp_all [goodStrArg]

theorem methodCount_bad (base : String) (arg : Option Expression)
    (hg : goodStrArg arg = false) : methodCount base arg = base := by
  rw [methodCount.eq_def]
  rcases arg with _ | e
  · rfl
  · cases e <;> simp_all [goodStrArg]

set_option maxHeartbeats 4000000 in
theorem methodRepeatSep_bad (base : String) (arg : Option Expression)
    (msg client : Option String) (vars : VarMap) (hg : goodPairArg arg = false) :
    methodRepeatSep base arg msg client vars = base := by
  rw [methodRepeatSep.eq_def]
  rcases harg : pairArg arg with _ | p
  · rfl
  · exact absurd (goodPairArg_of_pairArg harg) (by simp [hg])

set_option maxHeartbeats 4000000 in
theorem methodReplace_bad (base : String) (arg : Option Expression)
    (msg client : Option String) (vars : VarMap) (hg : goodPairArg arg = false) :
    methodReplace base arg msg client vars = base := by
  rw [methodReplace.eq_def]
  rcases harg : pairArg arg with _ | p
  · rfl
  · exact absurd (goodPairArg_of_pairArg harg) (by simp [hg])

/-- C1 (code bug): the `If` arm of `execute_statements` matches
`Statement::If` by `condition`, `then_body` and `else_body` only and never
binds or consults the `else_ifs` field declared in `ast.rs`, so executing
`if false (log A) else if true (log B) else (log C)` runs the else-body and
logs `C` — not `B`, the first truthy else-if branch the claim predicts. -/
theorem claim1_else_if_ignored :
    (execStmts none none
        [Statement.ifStmt (Expression.str "false")
          [Statement.log (Expression.str "A")]
          [(Expression.str "true", [Statement.log (Expression.str "B")])]
          (some [Statement.log (Expression.str "C")])]
        ⟨[], [], []⟩).logs = ["C"] ∧
    (["C"] : List String) ≠ ["B"] := by
  constructor
  · have hf := evalExpression_str_plain (s := "false") none none [] (by decide)
    have hc := evalExpression_str_plain (s := "C") none none [] (by decide)
    simp [execStmts, execStmt, hf, hc, truthy]
  · decide

/-- The actual 1-based line and column of the character at index `i` of a
source text: the line is one more than the number of newlines before it,
the column one more than the number of characters since the last
newline. -/
def trueLineCol (s : String) (i : Nat) : Nat × Nat :=
  let pre := s.data.take i
  (1 + (pre.filter (fun c => c == '\n')).length,
   1 + (pre.reverse.takeWhile (fun c => c != '\n')).length)

/-- C4 (code bug): lexical errors are supposed to carry the true 1-based
line and column of the offending position, but the single-character
punctuation branches of the lexer push their token without advancing the
column counter: lexing `(@` fails at the `@` (index 1, true position line
1 column 2) yet the error reports column 1. -/
theorem claim4_error_position :
    lex "(@" = Except.error (LexError.unexpectedCharacter 1 1 '@') ∧
    trueLineCol "(@" 1 = (1, 2) ∧
    ¬((1, 1) = ((1 : Nat), (2 : Nat))) := by
  refine ⟨?_, by decide, by decide⟩
  have hd : "(@".data = ['(', '@'] := rfl
  rw [lex, hd, lexLoop_lparen, lexLoop_atSign]

/-- C7 (counterexample): the claim says every call with a wrong argument
shape logs a diagnostic and returns the unmodified base text, but
`repeat` with a non-numeric argument silently repeats the base twice:
`"x".repeat("a")` evaluates to `"xx"`, not `"x"`, and prints no
warning. -/
theorem claim7_counterexample :
    evalExpression (Expression.methodCall (Expression.str "x") "repeat"
        (some (Expression.str "a"))) none none [] = "xx" ∧
    applyMethodWarns "repeat" (some (Expression.str "a")) = false ∧
    ("xx" : String) ≠ "x" := by
  refine ⟨?_, by decide, by decide⟩
  rw [evalExpression_methodCall,
    evalExpression_str_plain none none [] (by decide),
    applyMethod_repeat]
  have h : methodRepeat "x" (some (Expression.str "a")) = repeatStr "x" 2 := by
    simp [methodRepeat]
  rw [h, repeatStr_two]
  decide

/-- C7 (amended): an unknown method name logs a diagnostic and returns
the unmodified base text, and so does a wrong-shape argument for the
shape-checking methods (`contains`, `starts_with`, `ends_with`, `find`,
`remove`, `count` demand a non-empty string literal; `repeat_sep` and
`replace` a two-element tuple).  `repeat`, however, treats any
non-numeric argument as the default count 2 with no diagnostic, and the
no-argument methods ignore their argument entirely (e.g. `reverse` still
reverses) — for those, a wrong-shape call neither warns nor returns the
base unchanged.  `"x".bogus()` evaluates to `"x"` with a warning, and
evaluation is total, so a bad call never aborts the handler. -/
theorem claim7_method_fail_soft :
    (∀ (base method : String) (arg : Option Expression)
       (msg client : Option String) (vars : VarMap),
      method ∉ builtinMethods →
      applyMethod base method arg msg client vars = base ∧
      applyMethodWarns method arg = true) ∧
    (∀ (base : String) (arg : Option Expression) (msg client : Option String)
       (vars : VarMap),
      goodStrArg arg = false →
      (applyMethod base "contains" arg msg client vars = base ∧
       applyMethod base "starts_with" arg msg client vars = base ∧
       applyMethod base "ends_with" arg msg client vars = base ∧
       applyMethod base "find" arg msg client vars = base ∧
       applyMethod base "remove" arg msg client vars = base ∧
       applyMethod base "count" arg msg client vars = base) ∧
      applyMethodWarns "contains" arg = true) ∧
    (∀ (base : String) (arg : Option Expression) (msg client : Option String)
       (vars : VarMap),
      goodPairArg arg = false →
      applyMethod base "repeat_sep" arg msg client vars = base ∧
      applyMethod base "replace" arg msg client vars = base ∧
      applyMethodWarns "replace" arg = true) ∧
    (∀ (base a : String) (msg client : Option String) (vars : VarMap),
      applyMethod base "repeat" (some (Expression.str a)) msg client vars =
        base ++ base ∧
      applyMethodWarns "repeat" (some (Expression.str a)) = false) ∧
    (applyMethod "ab" "reverse" (some (Expression.str "z")) none none [] = "ba" ∧
     applyMethodWarns "reverse" (some (Expression.str "z")) = false) ∧
    evalExpression (Expression.methodCall (Expression.str "x") "bogus" none)
      none none [] = "x" ∧
    applyMethodWarns "bogus" none = true := by
  refine ⟨?_, ?_, ?_, ?_, ⟨?_, by decide⟩, ?_, by decide⟩
  · intro base method arg msg client vars h
    exact ⟨applyMethod_unknown base method arg msg client vars h,
      applyMethodWarns_unknown method arg h⟩
  · intro base arg msg client vars hg
    refine ⟨⟨?_, ?_, ?_, ?_, ?_, ?_⟩, ?_⟩
    · rw [applyMethod_contains, methodContains_bad _ _ hg]
    · rw [applyMethod_startsWith, methodStartsWith_bad _ _ hg]
    · rw [applyMethod_endsWith, methodEndsWith_bad _ _ hg]
    · rw [applyMethod_find, methodFind_bad _ _ hg]
    · rw [applyMethod_remove, methodRemove_bad _ _ hg]
    · rw [applyMethod_count, methodCount_bad _ _ hg]
    · rw [applyMethodWarns]
      simp [hg]
  · intro base arg msg client vars hg
    refine ⟨?_, ?_, ?_⟩
    · rw [applyMethod_repeatSep, methodRepeatSep_bad _ _ _ _ _ hg]
    · rw [applyMethod_replace, methodReplace_bad _ _ _ _ _ hg]
    · rw [applyMethodWarns]
      simp [hg]
  · intro base a msg client vars
    constructor
    · rw [applyMethod_repeat]
      have h : methodRepeat base (some (Expression.str a)) = repeatStr base 2 := by
        simp [methodRepeat]
      rw [h, repeatStr_two]
    · rw [applyMethodWarns]
      simp [builtinMethods]
  · rw [applyMethod.eq_def]
    simp
  · rw [evalExpression_methodCall,
      evalExpression_str_plain none none [] (by decide),
      applyMethod_unknown _ _ _ _ _ _ (by decide)]

/-- C8: inside a string literal the lexer decodes exactly the escapes
backslash-n, -t, -r, -backslash and -quote into LF, TAB, CR, backslash
and double quote; any other escaped character is an `InvalidEscape`
error, and an unescaped newline or end of input before the closing quote
is an `UnterminatedString` error; lexing the source spelling
`"a\nb\tc\\\"d"` yields the text `a<LF>b<TAB>c\"d`. -/
theorem claim8_escape_fidelity :
    lex "\"a\\nb\\tc\\\\\\\"d\"" =
      Except.ok [Token.str "a\nb\tc\\\"d", Token.eof] ∧
    lex "\"\\r\"" = Except.ok [Token.str "\r", Token.eof] ∧
    (∀ c : Char, c ∉ ['n', 't', 'r', '\\', '"'] →
      lex (String.mk ['"', '\\', c, '"']) =
        Except.error (LexError.invalidEscape 1 3 c)) ∧
    lex "\"\\q\"" = Except.error (LexError.invalidEscape 1 3 'q') ∧
    lex "\"x\ny\"" = Except.error (LexError.unterminatedString 1 1) ∧
    lex "\"x" = Except.error (LexError.unterminatedString 1 1) := by
  refine ⟨?_, ?_, ?_, ?_, ?_, ?_⟩
  · have hd : "\"a\\nb\\tc\\\\\\\"d\"".data =
        ['"', 'a', '\\', 'n', 'b', '\\', 't', 'c', '\\', '\\', '\\', '"', 'd', '"'] :=
      rfl
    rw [lex, hd, lexLoop_quote]
    simp [lexString_ordinary, lexString_escape, lexString_quote, lexLoop_nil]
  · have hd : "\"\\r\"".data = ['"', '\\', 'r', '"'] := rfl
    rw [lex, hd, lexLoop_quote]
    simp [lexString_escape, lexString_quote, lexLoop_nil]
  · intro c hc
    simp only [List.mem_cons, List.not_mem_nil, or_false, not_or] at hc
    obtain ⟨h1, h2, h3, h4, h5⟩ := hc
    have hd : (String.mk ['"', '\\', c, '"']).data = ['"', '\\', c, '"'] := rfl
    rw [lex, hd, lexLoop_quote, lexString_escape]
    simp [h1, h2, h3, h4, h5]
  · have hd : "\"\\q\"".data = ['"', '\\', 'q', '"'] := rfl
    rw [lex, hd, lexLoop_quote, lexString_escape]
    simp
  · have hd : "\"x\ny\"".data = ['"', 'x', '\n', 'y', '"'] := rfl
    rw [lex, hd, lexLoop_quote]
    simp [lexString_ordinary, lexString_newline]
  · have hd : "\"x".data = ['"', 'x'] := rfl
    rw [lex, hd, lexLoop_quote]
    simp [lexString_ordinary, lexString_nil]

/-- C10: each single-string-argument method (`contains`, `starts_with`,
`ends_with`, `find`, `remove`, `count`) is actually applied only when its
argument is a string literal with non-empty text; every other argument
shape — an empty string literal, a variable, a number, a tuple, or no
argument at all — takes the fail-soft path and returns the base text
unchanged, so `"abc".contains("")` and `"abc".contains($x)` both evaluate
to `"abc"`. -/
theorem claim10_string_arg_guard :
    (∀ (base a : String) (msg client : Option String) (vars : VarMap),
      a ≠ "" →
      applyMethod base "contains" (some (Expression.str a)) msg client vars =
        boolString (containsSub base.data a.data) ∧
      applyMethod base "starts_with" (some (Expression.str a)) msg client vars =
        boolString (a.data.isPrefixOf base.data) ∧
      applyMethod base "ends_with" (some (Expression.str a)) msg client vars =
        boolString (a.data.isSuffixOf base.data) ∧
      applyMethod base "find" (some (Expression.str a)) msg client vars =
        (match findSub base.data a.data with
         | some i => toString (utf8Len (base.data.take i))
         | none => "-1") ∧
      applyMethod base "remove" (some (Expression.str a)) msg client vars =
        String.mk (replaceAll a.data [] base.data) ∧
      applyMethod base "count" (some (Expression.str a)) msg client vars =
        toString (countOcc a.data base.data)) ∧
    (∀ (base : String) (arg : Option Expression) (msg client : Option String)
       (vars : VarMap),
      goodStrArg arg = false →
      applyMethod base "contains" arg msg client vars = base ∧
      applyMethod base "starts_with" arg msg client vars = base ∧
      applyMethod base "ends_with" arg msg client vars = base ∧
      applyMethod base "find" arg msg client vars = base ∧
      applyMethod base "remove" arg msg client vars = base ∧
      applyMethod base "count" arg msg client vars = base) ∧
    (goodStrArg (some (Expression.str "")) = false ∧
     goodStrArg (some (Expression.var "x")) = false ∧
     goodStrArg (some (Expression.num 3)) = false ∧
     goodStrArg (some (Expression.tuple [])) = false ∧
     goodStrArg none = false) ∧
    evalExpression (Expression.methodCall (Expression.str "abc") "contains"
      (some (Expression.str ""))) none none [] = "abc" ∧
    evalExpression (Expression.methodCall (Expression.str "abc") "contains"
      (some (Expression.var "x"))) none none [] = "abc" := by
  refine ⟨?_, ?_, by decide, ?_, ?_⟩
  · intro base a msg client vars ha
    refine ⟨?_, ?_, ?_, ?_, ?_, ?_⟩
    · rw [applyMethod_contains]
      simp [methodContains, ha]
    · rw [applyMethod_startsWith]
      simp [methodStartsWith, ha]
    · rw [applyMethod_endsWith]
      simp [methodEndsWith, ha]
    · rw [applyMethod_find]
      simp [methodFind, ha]
    · rw [applyMethod_remove]
      simp [methodRemove, ha]
    · rw [applyMethod_count]
      simp [methodCount, ha]
  · intro base arg msg client vars hg
    exact ⟨by rw [applyMethod_contains, methodContains_bad _ _ hg],
      by rw [applyMethod_startsWith, methodStartsWith_bad _ _ hg],
      by rw [applyMethod_endsWith, methodEndsWith_bad _ _ hg],
      by rw [applyMethod_find, methodFind_bad _ _ hg],
      by rw [applyMethod_remove, methodRemove_bad _ _ hg],
      by rw [applyMethod_count, methodCount_bad _ _ hg]⟩
  · rw [evalExpression_methodCall,
      evalExpression_str_plain none none [] (by decide),
      applyMethod_contains, methodContains_bad _ _ (by decide)]
  · rw [evalExpression_methodCall,
      evalExpression_str_plain none none [] (by decide),
      applyMethod_contains, methodContains_bad _ _ (by decide)]

end Vivo
